import Mathlib

/-!
Verification development for the alecthomas/hcl Go package.

The Go code is shallowly embedded: Go strings are modelled as lists of
characters (Go iterates strings byte- or rune-wise; for the code under
study the two views agree on the inputs involved), Go slices as lists,
Go maps as association lists whose order models the (arbitrary) iteration
order, and the arbitrary-precision big.Float values as rationals.
Functions are named after the Go functions they embed.
-/

namespace HclSpec

/-- Go string, modelled as its list of characters. -/
abbrev Str := List Char

/-- Shorthand turning a Lean string literal into the character-list model. -/
def gs (s : String) : Str := s.data

/-- Models unicode.IsSpace restricted to the Latin-1 range, which covers
every character the package treats as whitespace. -/
def goIsSpace (c : Char) : Bool :=
  c == ' ' || c == '\t' || c == '\n' || c == '\x0b' || c == '\x0c' ||
    c == '\r' || c == '\x85' || c == '\xa0'

/-- Models strings.Split(s, newline): splits at every newline character,
never returns an empty list. -/
def splitOnNl : Str → List Str
  | [] => [[]]
  | c :: rest =>
    if c = '\n' then [] :: splitOnNl rest
    else
      match splitOnNl rest with
      | [] => [[c]]
      | l :: ls => (c :: l) :: ls

/-- Models strings.Join(lines, newline). -/
def goJoinNl : List Str → Str
  | [] => []
  | [l] => l
  | l :: ls => l ++ '\n' :: goJoinNl ls

/-- Models strings.TrimPrefix: removes p from the front of s when p is a
prefix of s, otherwise returns s unchanged. -/
def goTrimPre (p s : Str) : Str :=
  if p.isPrefixOf s then s.drop p.length else s

/-- Embeds whitespacePrefix from util.go: the longest run of whitespace
characters at the start of the line. -/
def whitespacePre : Str → Str
  | [] => []
  | c :: rest => if goIsSpace c then c :: whitespacePre rest else []

/-- Embeds dedent from util.go: find the shortest leading-whitespace run
among all lines (the first line seeds the accumulator, later lines replace
it only when strictly shorter) and trim that prefix from every line. -/
def dedent (s : Str) : Str :=
  let lines := splitOnNl s
  let indent := (lines.drop 1).foldl
    (fun ind line =>
      let candidate := whitespacePre line
      if candidate.length < ind.length then candidate else ind)
    (whitespacePre (lines.headD []))
  goJoinNl (lines.map (goTrimPre indent))

/-- Embeds Heredoc.GetHeredoc: drop the first character of Doc (the
lexing artefact, a newline), then dedent only when the delimiter starts
with a dash. The Go code indexes Delimiter[0] and so panics on an empty
delimiter; parsed delimiters are never empty, and the theorems below
constrain the delimiter accordingly. -/
def getHeredoc (delimiter doc : Str) : Str :=
  let heredoc := doc.drop 1
  match delimiter with
  | [] => heredoc
  | c :: _ => if c = '-' then dedent heredoc else heredoc

/-- Embeds the marshalState options record from marshal.go (the
seenStructs working set, used only by schema reflection, is omitted). -/
structure marshalState where
  inferHCLTags : Bool := false
  hereDocsForMultiline : Nat := 0
  bareAttr : Bool := false
  schema : Bool := false
  schemaComments : Bool := false
  allowExtra : Bool := false

/-- Embeds InferHCLTags from marshal.go: stores its argument. -/
def InferHCLTags (v : Bool) : marshalState → marshalState :=
  fun options => { options with inferHCLTags := v }

/-- Embeds BareBooleanAttributes from marshal.go: the body writes the
literal true into the flag, ignoring the argument v. -/
def BareBooleanAttributes (_v : Bool) : marshalState → marshalState :=
  fun options => { options with bareAttr := true }

/-- Embeds HereDocsForMultiLine from marshal.go: stores its argument. -/
def HereDocsForMultiLine (n : Nat) : marshalState → marshalState :=
  fun options => { options with hereDocsForMultiline := n }

/-- Embeds AllowExtra from marshal.go: the body writes the literal true
into the flag, ignoring the argument ok. -/
def AllowExtra (_ok : Bool) : marshalState → marshalState :=
  fun options => { options with allowExtra := true }

/-- Source position, embedding lexer.Position (the file name accompanying
a position plays no role in the claims and is omitted). -/
structure Pos where
  offset : Nat
  line : Nat
  column : Nat

/-- The zero Position, as returned by RecursiveEntry.Position. -/
def Pos.zero : Pos := ⟨0, 0, 0⟩

mutual

/-- Embeds the Value union of the AST (Bool, Number, String, Type,
Heredoc, List, Map). The weak Parent back-references are not part of the
functional model; numbers are modelled as rationals. -/
inductive Value where
  | bool (pos : Pos) (b : Bool)
  | number (pos : Pos) (f : Rat)
  | str (pos : Pos) (s : Str)
  | typ (pos : Pos) (t : Str)
  | heredoc (pos : Pos) (delimiter : Str) (doc : Str)
  | list (pos : Pos) (elems : List Value)
  | map (pos : Pos) (entries : List MapEntry)

/-- Embeds MapEntry: a key and value pair inside a map literal. -/
inductive MapEntry where
  | mk (pos : Pos) (comments : List Str) (key : Value) (value : Value)

end

/-- Embeds the Entry union: Attribute, Block, Comment and RecursiveEntry. -/
inductive Entry where
  | attribute (pos : Pos) (comments : List Str) (key : Str) (value : Option Value)
      (default : Option Value) (enum : List Value) (optional : Bool)
  | block (pos : Pos) (comments : List Str) (name : Str) (repeated : Bool)
      (labels : List Str) (body : List Entry) (trailing : List Str)
  | comment (pos : Pos) (endPos : Pos) (comments : List Str)
  | recursiveEntry

/-- Embeds the root AST node. -/
structure AST where
  pos : Pos
  entries : List Entry
  trailingComments : List Str
  schema : Bool

/-- Embeds EntryKey: the attribute key or block name. Comment.EntryKey
returns the empty string; RecursiveEntry.EntryKey panics in Go and is
modelled by the empty string here (the theorems that depend on keys
exclude RecursiveEntry). -/
def Entry.entryKey : Entry → Str
  | .attribute _ _ key _ _ _ _ => key
  | .block _ _ name _ _ _ _ => name
  | .comment _ _ _ => []
  | .recursiveEntry => []

/-- Embeds Position on entries; RecursiveEntry.Position returns the zero
position. -/
def Entry.position : Entry → Pos
  | .attribute pos _ _ _ _ _ _ => pos
  | .block pos _ _ _ _ _ _ => pos
  | .comment pos _ _ => pos
  | .recursiveEntry => Pos.zero

/-- True exactly for Block entries, mirroring the type assertion used by
unmarshalEntries. -/
def Entry.isBlockEntry : Entry → Bool
  | .block _ _ _ _ _ _ _ => true
  | _ => false

/-- True exactly for Attribute entries. -/
def Entry.isAttributeEntry : Entry → Bool
  | .attribute _ _ _ _ _ _ _ => true
  | _ => false

/-- True exactly for Comment entries. -/
def Entry.isCommentEntry : Entry → Bool
  | .comment _ _ _ => true
  | _ => false

/-- Helper used by populateAttachedCommentsInEntries: the in-place
mutation e.Comments = append(e.Comments, lines...) performed on the entry
that follows an adjacent comment. Blocks and attributes receive the
lines; any other entry kind falls through the type switch unchanged. -/
def Entry.attachComments (lines : List Str) : Entry → Entry
  | .block p c n r l b t => .block p (c ++ lines) n r l b t
  | .attribute p c k v d en o => .attribute p (c ++ lines) k v d en o
  | e => e

/-- Worker for populateAttachedCommentsInEntries, carrying the entry
under examination separately from the entries that follow it so that the
recursion is structural. -/
def populateAttachedCommentsGo (e : Entry) : List Entry → List Entry
  | [] => [e]
  | next :: rest =>
    match e with
    | .comment pos endPos lines =>
      if next.position.line = endPos.line + 1 then
        populateAttachedCommentsGo (next.attachComments lines) rest
      else
        .comment pos endPos lines :: populateAttachedCommentsGo next rest
    | _ => e :: populateAttachedCommentsGo next rest

/-- Embeds populateAttachedCommentsInEntries: walks the entry list; a
Comment entry whose end line + 1 equals the start line of the entry that
immediately follows it is dropped, its lines being appended to that
following entry when it is a Block or an Attribute (the Go loop mutates
the shared successor in place before reaching it, which the recursion
models by passing the updated successor along). -/
def populateAttachedCommentsInEntries : List Entry → List Entry
  | [] => []
  | e :: rest => populateAttachedCommentsGo e rest

/-- Counterexample input for C4: a block comment on line 1, a line
comment on line 2 and a block opening on line 3, as produced by parsing
a file of the shape slash-star a star-slash, then slash-slash b, then
foo with braces. -/
def cexCommentA : Entry := .comment ⟨0, 1, 1⟩ ⟨7, 1, 8⟩ [gs " a "]

def cexCommentB : Entry := .comment ⟨8, 2, 1⟩ ⟨12, 2, 5⟩ [gs " b"]

def cexBlock : Entry := .block ⟨13, 3, 1⟩ [] (gs "foo") false [] [] []

/-- Worker for attachedCommentsAmendedSpec. -/
def attachedCommentsAmendedGo (e : Entry) : List Entry → List Entry
  | [] => [e]
  | next :: rest =>
    match e with
    | .comment pos endPos lines =>
      if next.position.line = endPos.line + 1 then
        match next with
        | .block p c n r l b t =>
          attachedCommentsAmendedGo (.block p (c ++ lines) n r l b t) rest
        | .attribute p c k v d en o =>
          attachedCommentsAmendedGo (.attribute p (c ++ lines) k v d en o) rest
        | other => attachedCommentsAmendedGo other rest
      else
        .comment pos endPos lines :: attachedCommentsAmendedGo next rest
    | _ => e :: attachedCommentsAmendedGo next rest

/-- Follows the wording of the amended claim: a Comment entry whose
immediately following entry is line-adjacent (end line + 1 equals that
entry's start line) is dropped from the list, its lines being appended to
the Comments of that following entry when it is a Block or an Attribute
and discarded otherwise; every other Comment entry, and every entry of
any other kind, remains in place. -/
def attachedCommentsAmendedSpec : List Entry → List Entry
  | [] => []
  | e :: rest => attachedCommentsAmendedGo e rest

/-- The Node interface: any AST node reachable by the visitor. -/
inductive Node where
  | ast (a : AST)
  | entry (e : Entry)
  | value (v : Value)
  | mapEntry (m : MapEntry)

/-- Children contributed by an optional Value field: Attribute.children
returns the Value and Default fields including typed nils, which the
Visit nil-guard then skips; the absent case therefore contributes no
child. -/
def optValueNode : Option Value → List Node
  | none => []
  | some v => [Node.value v]

/-- Embeds the children() methods of every node type. Lists return no
children (List.children in the source returns nil), scalars return none,
maps return their entries, map entries return key and value, attributes
return their Value and Default, and containers return their entry
sequences. -/
def Node.children : Node → List Node
  | .ast a => a.entries.map Node.entry
  | .entry (.attribute _ _ _ v d _ _) => optValueNode v ++ optValueNode d
  | .entry (.block _ _ _ _ _ body _) => body.map Node.entry
  | .entry (.comment _ _ _) => []
  | .entry .recursiveEntry => []
  | .value (.map _ entries) => entries.map Node.mapEntry
  | .value _ => []
  | .mapEntry (.mk _ _ k v) => [.value k, .value v]

/-- The match performed by the visitor inside Find: a Block whose name,
an Attribute whose key, or a MapEntry whose String key equals one of the
requested names. -/
def matchesName (names : List Str) : Node → Bool
  | .entry (.block _ _ name _ _ _ _) => names.contains name
  | .entry (.attribute _ _ key _ _ _ _) => names.contains key
  | .mapEntry (.mk _ _ (.str _ s) _) => names.contains s
  | _ => false

theorem sizeOf_mem_children {c n : Node} (h : c ∈ Node.children n) :
    sizeOf c < sizeOf n := by
  cases n with
  | ast a =>
    cases a with
    | mk pos entries tc sch =>
      obtain ⟨x, hx, rfl⟩ := List.mem_map.mp h
      have h1 : sizeOf x < sizeOf entries := List.sizeOf_lt_of_mem hx
      simp only [Node.entry.sizeOf_spec, Node.ast.sizeOf_spec, AST.mk.sizeOf_spec]
      omega
  | entry e =>
    cases e with
    | comment p ep cs => simp [Node.children] at h
    | recursiveEntry => simp [Node.children] at h
    | block p c2 nm r lb body t =>
      obtain ⟨x, hx, rfl⟩ := List.mem_map.mp (by simpa [Node.children] using h)
      have h1 := List.sizeOf_lt_of_mem hx
      simp only [Node.entry.sizeOf_spec, Entry.block.sizeOf_spec]
      omega
    | _ =>
      rename_i p c2 key v d en o
      have h2 : c ∈ optValueNode v ++ optValueNode d := by simpa [Node.children] using h
      rcases List.mem_append.mp h2 with h3 | h3 <;>
      · rcases hv : (match h3 with | _ => v) with _ | x
        all_goals cases v <;> cases d <;>
          simp only [optValueNode, List.mem_singleton, List.not_mem_nil] at h3 <;>
          first
          | exact absurd h3 (fun hf => hf)
          | (subst h3
             simp only [Node.entry.sizeOf_spec, Entry.attribute.sizeOf_spec,
               Node.value.sizeOf_spec, Option.some.sizeOf_spec]
             omega)
  | value v =>
    cases v with
    | map p es =>
      obtain ⟨x, hx, rfl⟩ := List.mem_map.mp (by simpa [Node.children] using h)
      have h1 := List.sizeOf_lt_of_mem hx
      simp only [Node.mapEntry.sizeOf_spec, Node.value.sizeOf_spec, Value.map.sizeOf_spec]
      omega
    | _ => simp [Node.children] at h
  | mapEntry m =>
    cases m with
    | mk p c2 k v =>
      rcases (by simpa [Node.children] using h : c = Node.value k ∨ c = Node.value v) with
        rfl | rfl <;>
      · simp only [Node.value.sizeOf_spec, Node.mapEntry.sizeOf_spec, MapEntry.mk.sizeOf_spec]
        omega

/-- Pre-order enumeration of the tree rooted at a node, following the
children() relation: the node itself first, then the pre-orders of its
children in order. -/
def preorder (n : Node) : List Node :=
  n :: (Node.children n).attach.flatMap (fun c => preorder c.1)
termination_by sizeOf n
decreasing_by exact sizeOf_mem_children c.2

/-- The visitor body of Find: record the node when it matches, then
invoke next(), which visits the children in order; the accumulator
models the nodes slice the Go closure appends to. -/
def findVisit (names : List Str) (n : Node) (acc : List Node) : List Node :=
  ((Node.children n).attach).foldl (fun a c => findVisit names c.1 a)
    (if matchesName names n then acc ++ [n] else acc)
termination_by sizeOf n
decreasing_by exact sizeOf_mem_children c.2

/-- Embeds Find from the visitor source file: Visit with a visitor that
collects blocks by name, attributes by key, and map entries with a
matching string key. -/
def Find (n : Node) (names : List Str) : List Node :=
  findVisit names n []

/-- True exactly for RecursiveEntry entries. -/
def Entry.isRecursiveEntry : Entry → Bool
  | .recursiveEntry => true
  | _ => false

/-- The error raised by unmarshalEntries when a key occurs both as a
block and as an attribute: participle.Errorf attaches the position of the
first entry seen under the key, and the message interpolates the position
of the later conflicting entry and the key, reading: (msgPos): (key)
cannot be both block and attribute. -/
structure BlockAttrConflict where
  errPos : Pos
  msgPos : Pos
  key : Str

/-- Association-list lookup, modelling a Go map read. -/
def assocGet {β : Type} (k : Str) : List (Str × β) → Option β
  | [] => none
  | (k2, v) :: rest => if k2 = k then some v else assocGet k rest

/-- Association-list write, modelling a Go map write (replace or add). -/
def assocPut {β : Type} (k : Str) (v : β) : List (Str × β) → List (Str × β)
  | [] => [(k, v)]
  | (k2, v2) :: rest => if k2 = k then (k2, v) :: rest else (k2, v2) :: assocPut k v rest

/-- Embeds the entry-collection loop at the top of unmarshalEntries: each
entry is appended to the bucket of its key in the mentries multimap and
recorded in seen, except that an entry whose block-ness differs from the
first entry of an existing bucket aborts with the conflict error. The
buckets of a Go map are unordered; the association list records them in
first-insertion order, which no later lookup distinguishes. -/
def collectEntriesGo (mentries : List (Str × List Entry)) (seen : List (Str × Entry)) :
    List Entry → Except BlockAttrConflict (List (Str × List Entry) × List (Str × Entry))
  | [] => .ok (mentries, seen)
  | entry :: rest =>
    let key := entry.entryKey
    match assocGet key mentries with
    | some existing =>
      if (existing.headD Entry.recursiveEntry).isBlockEntry ≠ entry.isBlockEntry then
        .error ⟨(existing.headD Entry.recursiveEntry).position, entry.position, key⟩
      else
        collectEntriesGo (assocPut key (existing ++ [entry]) mentries)
          (assocPut key entry seen) rest
    | none =>
      collectEntriesGo (assocPut key [entry]  mentries) (assocPut key entry seen) rest

/-- The entry-collection phase of unmarshalEntries, started on empty
maps. -/
def collectEntries (entries : List Entry) :
    Except BlockAttrConflict (List (Str × List Entry) × List (Str × Entry)) :=
  collectEntriesGo [] [] entries

/-- Buckets are nonempty and their first element fixes the block-ness
recorded for the key. -/
def bucketsOK (m : List (Str × List Entry)) : Prop :=
  ∀ p ∈ m, p.2 ≠ []

/-- Splits a character-list string at a separator, modelling
strings.Split; never returns an empty list. -/
def splitOnCh (sep : Char) : Str → List Str
  | [] => [[]]
  | c :: rest =>
    if c = sep then [] :: splitOnCh sep rest
    else
      match splitOnCh sep rest with
      | [] => [[c]]
      | l :: ls => (c :: l) :: ls

/-- Joins strings with a separator, modelling strings.Join. -/
def goJoinSep (sep : Str) : List Str → Str
  | [] => []
  | [l] => l
  | l :: ls => l ++ sep ++ goJoinSep sep ls

/-- One escaped character of strconv.Quote. The full escaping of
non-printable characters is not modelled; the characters appearing in
this development are covered. -/
def quoteEscape (c : Char) : Str :=
  if c = '"' ∨ c = '\\' then ['\\', c]
  else if c = '\n' then ['\\', 'n']
  else if c = '\t' then ['\\', 't']
  else if c = '\r' then ['\\', 'r']
  else [c]

/-- Models strconv.Quote: a double-quoted Go string literal. -/
def goQuote (s : Str) : Str :=
  '"' :: s.flatMap quoteEscape ++ ['"']

/-- Value of a digit character in bases up to 36, as strconv reads one. -/
def digitVal (c : Char) : Option Nat :=
  if '0' ≤ c ∧ c ≤ '9' then some (c.toNat - '0'.toNat)
  else if 'a' ≤ c ∧ c ≤ 'z' then some (c.toNat - 'a'.toNat + 10)
  else if 'A' ≤ c ∧ c ≤ 'Z' then some (c.toNat - 'A'.toNat + 10)
  else none

/-- The digit-accumulation loop of strconv.ParseUint with the 64-bit
range check; a digit at or above the base, or overflow, is an error. -/
def digitsLoop (base : Nat) : Str → Nat → Option Nat
  | [], n => some n
  | c :: rest, n =>
    match digitVal c with
    | none => none
    | some d =>
      if d < base then
        if n * base + d ≤ 2 ^ 64 - 1 then digitsLoop base rest (n * base + d)
        else none
      else none

/-- Models strconv.ParseUint(s, 0, 64): base detection by prefix (0b, 0o,
0x, leading 0 for octal, otherwise decimal). The underscore digit
grouping strconv additionally accepts in base-0 mode is not modelled. -/
def goParseUint0 (s : Str) : Option Nat :=
  match s with
  | [] => none
  | '0' :: rest =>
    match rest with
    | [] => some 0
    | b :: rest2 =>
      if (b == 'b' || b == 'B') && !rest2.isEmpty then digitsLoop 2 rest2 0
      else if (b == 'o' || b == 'O') && !rest2.isEmpty then digitsLoop 8 rest2 0
      else if (b == 'x' || b == 'X') && !rest2.isEmpty then digitsLoop 16 rest2 0
      else digitsLoop 8 (b :: rest2) 0
  | _ => digitsLoop 10 s 0

/-- Models strconv.ParseInt(s, 0, 64): optional sign, then ParseUint on
the rest, then the int64 range check. -/
def goParseInt0 (s : Str) : Option Int :=
  match s with
  | [] => none
  | c :: rest =>
    let neg := c = '-'
    let digitsPart := if c = '+' ∨ c = '-' then rest else c :: rest
    match goParseUint0 digitsPart with
    | none => none
    | some un =>
      if neg then
        if un ≤ 2 ^ 63 then some (-(un : Int)) else none
      else
        if un ≤ 2 ^ 63 - 1 then some (un : Int) else none

/-- Models strconv.ParseBool: the ten accepted literals. -/
def goParseBool (s : Str) : Option Bool :=
  if [gs "1", gs "t", gs "T", gs "TRUE", gs "true", gs "True"].contains s then some true
  else if [gs "0", gs "f", gs "F", gs "FALSE", gs "false", gs "False"].contains s
  then some false
  else none

/-- The scalar fragment of the Go field-type universe the unmarshaller
serves: string, signed integer, unsigned integer and boolean fields.
Struct, map, slice and pointer targets fall outside the modelled
fragment. -/
inductive GoKind where
  | str
  | int
  | uint
  | bool
deriving DecidableEq

/-- A scalar Go value held by a record field. -/
inductive GoFieldVal where
  | str (s : Str)
  | int (n : Int)
  | uint (n : Nat)
  | bool (b : Bool)
deriving DecidableEq

/-- Models the field record the unmarshaller carries: the struct-field
name (used in error messages), the field kind after the one-level
pointer unwrap the Go code performs, and whether the type is handled
textually (it implements encoding.TextMarshaler or is a duration or a
time). -/
structure goField where
  fieldName : Str
  kind : GoKind
  textLike : Bool
deriving DecidableEq

/-- Embeds the tag record of the field-descriptor engine. -/
structure tag where
  name : Str := []
  optional : Bool := false
  label : Bool := false
  block : Bool := false
  remain : Bool := false
  help : Str := []
  defaultValue : Str := []
  enum : Str := []
deriving DecidableEq

/-- Models the reflect.StructField inputs of parseTag: the Go field
name, the optional hcl and json struct tags, the help, default and enum
companion tags, and whether the type under pointer and slice
indirection is a struct (consulted by InferHCLTags inference). -/
structure GoStructField where
  name : Str
  hclTag : Option Str
  jsonTag : Option Str
  helpTag : Str
  defaultTag : Str
  enumTag : Str
  isStructUnderneath : Bool
deriving DecidableEq

/-- Embeds parseTag: resolves the hcl tag, falling back to the json tag
and then to the field name; a tag of dash suppresses the field; a lone
name is optional exactly when a default is declared; the option keyword
selects optional, label, block or remain behaviour. An unrecognized
option panics in Go, modelled by none. -/
def parseTag (f : GoStructField) (opt : marshalState) : Option tag :=
  let isBlock :=
    match f.hclTag with
    | none => opt.inferHCLTags && f.isStructUnderneath
    | some _ => false
  match (match f.hclTag with | some s => some s | none => f.jsonTag) with
  | none =>
    some { name := f.name, block := isBlock, optional := true, help := f.helpTag,
           defaultValue := f.defaultTag, enum := f.enumTag }
  | some s =>
    let parts := splitOnCh ',' s
    let name0 := parts.headD []
    if name0 = gs "-" then some {}
    else
      let name := if name0 = [] then f.name else name0
      if parts.length = 1 then
        some { name := name, block := isBlock, help := f.helpTag,
               defaultValue := f.defaultTag, optional := decide (f.defaultTag ≠ []),
               enum := f.enumTag }
      else
        match parts.get? 1 with
        | none => none
        | some o =>
          if o = gs "optional" ∨ o = gs "omitempty" then
            some { name := name, block := isBlock, optional := true, help := f.helpTag,
                   defaultValue := f.defaultTag, enum := f.enumTag }
          else if o = gs "label" then
            some { name := name, label := true, help := f.helpTag }
          else if o = gs "block" then
            some { name := name, block := true, optional := true, help := f.helpTag }
          else if o = gs "remain" then
            some { name := name, remain := true, help := f.helpTag }
          else none

/-- Canonical string form of a rational, modelling big.Float.String for
the values handled in this development: integral values print their
decimal digits, non-integral values print as exact decimal fractions
when finite. -/
def ratGoString (q : Rat) : Str :=
  if q.den = 1 then gs (toString q.num) else gs (toString q.num) ++ '/' :: gs (toString q.den)

mutual

/-- Embeds the String() methods of the Value variants: the canonical
printed form used by the printer and by enum comparison. -/
def valueString : Value → Str
  | .bool _ b => if b then gs "true" else gs "false"
  | .number _ q => ratGoString q
  | .str _ s => goQuote s
  | .typ _ t => t
  | .heredoc _ delim doc => gs "<<" ++ delim ++ doc ++ '\n' :: goTrimPre (gs "-") delim
  | .list _ elems => '[' :: goJoinSep (gs ", ") (valueStringList elems) ++ [']']
  | .map _ entries =>
    '{' :: goJoinSep (gs ", ") (mapEntryStringList entries) ++ ['}']

/-- String forms of a list of values. -/
def valueStringList : List Value → List Str
  | [] => []
  | v :: rest => valueString v :: valueStringList rest

/-- String forms of the entries of a map, each as key, colon, value. -/
def mapEntryStringList : List MapEntry → List Str
  | [] => []
  | .mk _ _ k v :: rest => (valueString k ++ gs ": " ++ valueString v) :: mapEntryStringList rest

end

/-- String form of a possibly absent Value; Go panics calling String on
a nil Value interface, modelled as the empty string (unreachable for the
values this development constructs). -/
def optValueString : Option Value → Str
  | none => []
  | some v => valueString v

/-- Embeds valueFromTag restricted to the modelled scalar field kinds:
an empty raw string yields no value; text-handled types take the string
literally; integer kinds parse in base-auto mode; booleans parse the
strconv literals. Parse failures carry the quoted raw string. -/
def valueFromTag (f : goField) (defaultValue : Str) : Except Str (Option Value) :=
  if defaultValue = [] then .ok none
  else if f.textLike then .ok (some (.str Pos.zero defaultValue))
  else
    match f.kind with
    | .str => .ok (some (.str Pos.zero defaultValue))
    | .int =>
      match goParseInt0 defaultValue with
      | some n => .ok (some (.number Pos.zero (n : Rat)))
      | none => .error (gs "error converting " ++ goQuote defaultValue ++ gs " to int")
    | .uint =>
      match goParseUint0 defaultValue with
      | some n => .ok (some (.number Pos.zero (n : Rat)))
      | none => .error (gs "error converting " ++ goQuote defaultValue ++ gs " to uint")
    | .bool =>
      match goParseBool defaultValue with
      | some b => .ok (some (.bool Pos.zero b))
      | none => .error (gs "error converting " ++ goQuote defaultValue ++ gs " to bool")

/-- Embeds defaultValueFromTag: valueFromTag with its error wrapped. -/
def defaultValueFromTag (f : goField) (defaultValue : Str) : Except Str (Option Value) :=
  match valueFromTag f defaultValue with
  | .ok v => .ok v
  | .error e => .error (gs "error parsing default value: " ++ e)

/-- Embeds enumValuesFromTag: the enum tag split on commas, each token
parsed like a default value. -/
def enumValuesFromTag (f : goField) (enum : Str) : Except Str (List (Option Value)) :=
  if enum = [] then .ok []
  else
    (splitOnCh ',' enum).foldr
      (fun e acc =>
        match valueFromTag f e with
        | .error err => .error (gs "error parsing enum: " ++ err)
        | .ok v =>
          match acc with
          | .error err => .error err
          | .ok vs => .ok (v :: vs))
      (.ok [])

/-- Embeds checkEnum for the modelled scalar kinds: no enum or no value
passes; otherwise the value must share its canonical string form with
one of the parsed enum values. The map, struct, array and slice
rejection branch concerns kinds outside the modelled fragment. -/
def checkEnum (v : Option Value) (f : goField) (enum : Str) : Except Str Unit :=
  match v with
  | none => .ok ()
  | some vv =>
    if enum = [] then .ok ()
    else
      match enumValuesFromTag f enum with
      | .error e => .error e
      | .ok enums =>
        if enums.any (fun e => optValueString e == valueString vv) then .ok ()
        else
          .error (gs "value " ++ valueString vv ++
            gs " does not match anything within enum " ++
            goJoinSep (gs ", ") (enums.map optValueString))

/-- Truncation of a rational toward zero, as big.Float Int64 and Uint64
truncate. -/
def ratTrunc (q : Rat) : Int := q.num.tdiv (q.den : Int)

/-- Models big.Float.Int64: truncate toward zero and clamp to the int64
range; the accompanying Accuracy result is discarded by the caller. -/
def floatInt64 (q : Rat) : Int :=
  max (-(2 ^ 63)) (min (2 ^ 63 - 1) (ratTrunc q))

/-- Models big.Float.Uint64: truncate toward zero and clamp to the
uint64 range, a negative argument yielding zero; the accompanying
Accuracy result is discarded by the caller. -/
def floatUint64 (q : Rat) : Nat :=
  if q < 0 then 0 else min (ratTrunc q).toNat (2 ^ 64 - 1)

/-- Embeds unmarshalValue for the modelled scalar kinds. String fields
accept strings, type keywords and heredocs (through GetHeredoc); the
integer kinds accept numbers through the truncating big.Float
conversions whose error results the Go code discards; booleans accept
bools, and an absent value under the bare-attribute policy means true.
An absent value reaching any other kind dereferences a nil interface in
Go and panics, modelled as an error. -/
def unmarshalValue (opt : marshalState) (k : GoKind) (v : Option Value) :
    Except Str GoFieldVal :=
  match k with
  | .str =>
    match v with
    | some (.str _ s) => .ok (.str s)
    | some (.typ _ t) => .ok (.str t)
    | some (.heredoc _ d doc) => .ok (.str (getHeredoc d doc))
    | some other => .error (gs "expected a type or string but got " ++ valueString other)
    | none => .error (gs "nil value")
  | .int =>
    match v with
    | some (.number _ q) => .ok (.int (floatInt64 q))
    | some other => .error (gs "expected a number but got " ++ valueString other)
    | none => .error (gs "nil value")
  | .uint =>
    match v with
    | some (.number _ q) => .ok (.uint (floatUint64 q))
    | some other => .error (gs "expected a number but got " ++ valueString other)
    | none => .error (gs "nil value")
  | .bool =>
    match v with
    | none =>
      if !opt.bareAttr then .error (gs "expected = after attribute")
      else .ok (.bool true)
    | some (.bool _ b) => .ok (.bool b)
    | some other => .error (gs "expected a bool but got " ++ valueString other)

/-- Embeds the branch of unmarshalEntries taken when the input holds no
entry for the descriptor under consideration (the bucket is empty and
the key was never seen): first the missing-required check, then default
parsing, enum validation of the parsed default, and assignment; cur is
the untouched current field value that a plain continue leaves in
place. -/
def missingFieldStep (f : goField) (cur : GoFieldVal) (t : tag) (opt : marshalState) :
    Except Str GoFieldVal :=
  if !t.optional then .error (gs "missing required attribute " ++ goQuote t.name)
  else
    match defaultValueFromTag f t.defaultValue with
    | .error e => .error e
    | .ok none => .ok cur
    | .ok (some v) =>
      match checkEnum (some v) f t.enum with
      | .error e => .error (gs "default value conflicts with enum: " ++ e)
      | .ok _ =>
        match unmarshalValue opt f.kind (some v) with
        | .error e =>
          .error (gs "error applying default value to field " ++ goQuote f.fieldName ++
            gs ", " ++ e)
        | .ok nv => .ok nv

/-- Follows the claim wording for the missing-entry case: when the
descriptor declares a default, the default is parsed by the field-type
rules, validated against the enum, and assigned; otherwise a
non-optional descriptor fails with the missing-required error; otherwise
the field is left unchanged. -/
def specMissingFieldStep (f : goField) (cur : GoFieldVal) (t : tag) (opt : marshalState) :
    Except Str GoFieldVal :=
  if t.defaultValue ≠ [] then
    match defaultValueFromTag f t.defaultValue with
    | .error e => .error e
    | .ok none => .ok cur
    | .ok (some v) =>
      match checkEnum (some v) f t.enum with
      | .error e => .error (gs "default value conflicts with enum: " ++ e)
      | .ok _ =>
        match unmarshalValue opt f.kind (some v) with
        | .error e =>
          .error (gs "error applying default value to field " ++ goQuote f.fieldName ++
            gs ", " ++ e)
        | .ok nv => .ok nv
  else if !t.optional then .error (gs "missing required attribute " ++ goQuote t.name)
  else .ok cur

/-- Insertion of a string into a sorted list, using the lexicographic
order that models Go string comparison. -/
def insertSorted (x : Str) : List Str → List Str
  | [] => [x]
  | y :: ys => if y < x then y :: insertSorted x ys else x :: y :: ys

/-- Strings in ascending lexicographic order: the image under the
String() forms of the key order produced by the sort.Slice call in
valueToValue. -/
def sortStrings (l : List Str) : List Str := l.foldr insertSorted []

/-- A reflect.Value used as a Go map key, by kind: a string-kind key
carries its string; int stands in for a non-string kind, every value of
which reflect.Value.String renders as one constant placeholder. -/
inductive GoKey where
  | str (s : Str)
  | int (n : Int)
deriving DecidableEq

/-- Models reflect.Value.String() on a map key: the string itself for a
string-kind value, and the placeholder text naming only the kind for
every other kind. -/
def goKeyString : GoKey → Str
  | .str s => s
  | .int _ => gs "<int Value>"

/-- Whether a map key is of string kind. -/
def goKeyIsStr : GoKey → Bool
  | .str _ => true
  | .int _ => false

/-- One insertion step of the sort.Slice call in valueToValue, whose
comparator is sorted[i].String() < sorted[j].String(): the key goes
after every key whose String() form is strictly smaller. Keys with
equal String() forms keep their incoming (iteration) order, as an
insertion pass of the library sort keeps them. -/
def insertKey (x : GoKey) : List GoKey → List GoKey
  | [] => [x]
  | y :: ys => if goKeyString y < goKeyString x then y :: insertKey x ys else x :: y :: ys

/-- The keys of a map in the order valueToValue emits them: ascending
in their String() forms. Keys whose String() forms coincide, as the
keys of any non-string kind all do, stay in iteration order. -/
def sortKeys (l : List GoKey) : List GoKey := l.foldr insertKey []

/-- The fragment of the Go value universe fed to the marshaller that the
determinism claim concerns: strings, integers, booleans, slices and
maps under keys of any kind. A map is carried as the association list
of its entries in iteration order; reflection exposes Go map entries in
an arbitrary order, so two runs see two permutations of the same
list. -/
inductive GoVal where
  | str (s : Str)
  | int (n : Int)
  | bool (b : Bool)
  | slice (elems : List GoVal)
  | map (entries : List (GoKey × GoVal))

/-- Models v.MapIndex(key): the value stored under a key. -/
def lookupGoOpt (k : GoKey) : List (GoKey × GoVal) → Option GoVal
  | [] => none
  | (k2, v) :: rest => if k2 = k then some v else lookupGoOpt k rest

theorem lookupGoOpt_sizeOf {k : GoKey} {v : GoVal} :
    ∀ {l : List (GoKey × GoVal)}, lookupGoOpt k l = some v → sizeOf v < sizeOf l := by
  intro l
  induction l with
  | nil => intro h; cases h
  | cons p rest ih =>
    obtain ⟨k2, v2⟩ := p
    intro h
    by_cases hk : k2 = k
    · have hv : v2 = v := by simpa [lookupGoOpt, hk] using h
      subst hv
      simp only [List.cons.sizeOf_spec, Prod.mk.sizeOf_spec]
      omega
    · have h2 := ih (by simpa [lookupGoOpt, hk] using h)
      simp only [List.cons.sizeOf_spec]
      omega

/-- Models strings.Count(s, newline). -/
def countNl (s : Str) : Nat := s.countP (fun c => c == '\n')

/-- Embeds valueToValue for the modelled fragment (non-schema mode):
strings become String values, or indented heredocs past the
HereDocsForMultiLine threshold; integers become Numbers, booleans Bools,
slices Lists; map emission reads the keys, sorts them by their String()
forms and looks each key up, producing a MapEntry per key whose emitted
key is the String value of the key's String() form. An unreachable
fallback covers a key that its own map fails to resolve. -/
def valueToValue (opt : marshalState) : GoVal → Value
  | .str s =>
    if opt.hereDocsForMultiline = 0 ∨ countNl s < opt.hereDocsForMultiline then
      .str Pos.zero s
    else .heredoc Pos.zero (gs "-EOF") ('\n' :: s)
  | .int n => .number Pos.zero (n : Rat)
  | .bool b => .bool Pos.zero b
  | .slice elems => .list Pos.zero (elems.attach.map (fun e => valueToValue opt e.1))
  | .map entries =>
    .map Pos.zero ((sortKeys (entries.map Prod.fst)).map (fun k =>
      match hv : lookupGoOpt k entries with
      | some v => .mk Pos.zero [] (.str Pos.zero (goKeyString k)) (valueToValue opt v)
      | none => .mk Pos.zero [] (.str Pos.zero (goKeyString k)) (.bool Pos.zero false)))
termination_by v => sizeOf v
decreasing_by
  · have h1 := List.sizeOf_lt_of_mem e.2
    simp only [GoVal.slice.sizeOf_spec]
    omega
  · have h1 := lookupGoOpt_sizeOf hv
    simp only [GoVal.map.sizeOf_spec]
    omega

theorem prodSnd_sizeOf (p : GoKey × GoVal) : sizeOf p.2 < sizeOf p := by
  obtain ⟨a, b⟩ := p
  simp only [Prod.mk.sizeOf_spec]
  omega

/-- Every key of every map inside the value is of string kind: the
fragment of the Go value universe on which map emission turns out to be
insensitive to iteration order. -/
def stringKeyed : GoVal → Bool
  | .str _ => true
  | .int _ => true
  | .bool _ => true
  | .slice elems => elems.attach.all (fun e => stringKeyed e.1)
  | .map entries => entries.attach.all (fun e => goKeyIsStr (e.1).1 && stringKeyed (e.1).2)
termination_by v => sizeOf v
decreasing_by
  · have h1 := List.sizeOf_lt_of_mem e.2
    simp only [GoVal.slice.sizeOf_spec]
    omega
  · have h1 := List.sizeOf_lt_of_mem e.2
    have h2 := prodSnd_sizeOf e.1
    simp only [GoVal.map.sizeOf_spec]
    omega

/-- Two Go values are representations of the same abstract value when
they differ only in the iteration order their maps were observed in:
map entry lists are key-permutations of each other with values under
equal keys again equivalent, and everything else is equal. Two runs of
Marshal over one Go value observe two such representations. -/
inductive ReprEquiv : GoVal → GoVal → Prop where
  | str (s : Str) : ReprEquiv (.str s) (.str s)
  | int (n : Int) : ReprEquiv (.int n) (.int n)
  | bool (b : Bool) : ReprEquiv (.bool b) (.bool b)
  | slice {as bs : List GoVal} :
      as.length = bs.length →
      (∀ p ∈ as.zip bs, ReprEquiv p.1 p.2) →
      ReprEquiv (.slice as) (.slice bs)
  | map {as bs : List (GoKey × GoVal)} :
      (as.map Prod.fst).Perm (bs.map Prod.fst) →
      (∀ pa ∈ as, ∀ pb ∈ bs, pa.1 = pb.1 → ReprEquiv pa.2 pb.2) →
      ReprEquiv (.map as) (.map bs)

/-- The string key of an emitted MapEntry (emitted keys are always
String values). -/
def mapEntryKeyStr : MapEntry → Str
  | .mk _ _ (.str _ s) _ => s
  | _ => []

/-- The key Value of a MapEntry. -/
def mapEntryKey : MapEntry → Value
  | .mk _ _ k _ => k

/-- The value Value of a MapEntry. -/
def mapEntryVal : MapEntry → Value
  | .mk _ _ _ v => v

theorem mapEntryKey_sizeOf (m : MapEntry) : sizeOf (mapEntryKey m) < sizeOf m := by
  cases m with
  | mk p c k v =>
    simp only [mapEntryKey, MapEntry.mk.sizeOf_spec]
    omega

theorem mapEntryVal_sizeOf (m : MapEntry) : sizeOf (mapEntryVal m) < sizeOf m := by
  cases m with
  | mk p c k v =>
    simp only [mapEntryVal, MapEntry.mk.sizeOf_spec]
    omega

/-- Adjacent-pairs ascending check over strings. -/
def strSortedLe : List Str → Bool
  | [] => true
  | [_] => true
  | a :: b :: rest => decide (a ≤ b) && strSortedLe (b :: rest)

/-- Every map node of a Value lists its entries in ascending key
order. -/
def mapsSorted : Value → Bool
  | .bool _ _ => true
  | .number _ _ => true
  | .str _ _ => true
  | .typ _ _ => true
  | .heredoc _ _ _ => true
  | .map _ entries =>
    strSortedLe (entries.map mapEntryKeyStr) &&
    entries.attach.all (fun e => mapsSorted (mapEntryKey e.1) && mapsSorted (mapEntryVal e.1))
  | .list _ elems => elems.attach.all (fun e => mapsSorted e.1)
termination_by v => sizeOf v
decreasing_by
  · have h1 := List.sizeOf_lt_of_mem e.2
    have h2 := mapEntryKey_sizeOf e.1
    simp only [Value.map.sizeOf_spec] at h1 ⊢
    omega
  · have h1 := List.sizeOf_lt_of_mem e.2
    have h2 := mapEntryVal_sizeOf e.1
    simp only [Value.map.sizeOf_spec] at h1 ⊢
    omega
  · have h1 := List.sizeOf_lt_of_mem e.2
    simp only [Value.list.sizeOf_spec] at h1 ⊢
    omega

/-- Embeds marshalComments: each comment line is printed at the current
indent behind a double-slash marker. -/
def marshalComments (indent : Str) (comments : List Str) : Str :=
  comments.flatMap (fun comment =>
    (splitOnNl comment).flatMap (fun line => indent ++ gs "// " ++ line ++ ['\n']))

/-- Embeds isType: a type keyword, a one-element list of a type, or a
one-entry map whose value is a type. -/
def isType : Value → Bool
  | .typ _ _ => true
  | .list _ [v] => isType v
  | .list _ _ => false
  | .map _ [.mk _ _ _ v] => isType v
  | .map _ _ => false
  | _ => false

/-- The comment lines of a MapEntry. -/
def mapEntryComments : MapEntry → List Str
  | .mk _ comments _ _ => comments

mutual

/-- Embeds marshalValue: maps print multiline through marshalMap, every
other value prints its canonical String form. A nil Value (an attribute
without a value) falls through to the formatting of a nil interface. -/
def marshalValue (indent : Str) (v : Option Value) : Str :=
  match v with
  | some (.map _ entries) => marshalMap (indent ++ gs "  ") entries
  | some other => valueString other
  | none => gs "<nil>"
termination_by sizeOf v
decreasing_by
  simp only [Option.some.sizeOf_spec, Value.map.sizeOf_spec]
  omega

/-- Embeds marshalMap: one entry per line at the deeper indent with a
trailing comma, the closing brace dedented by two columns. -/
def marshalMap (indent : Str) (entries : List MapEntry) : Str :=
  '{' :: '\n' ::
    (entries.attach.flatMap (fun e =>
      marshalComments indent (mapEntryComments e.1) ++ indent ++
        valueString (mapEntryKey e.1) ++ gs ": " ++
        marshalValue (indent ++ gs "  ") (some (mapEntryVal e.1)) ++ [',', '\n'])) ++
    indent.take (indent.length - 2) ++ ['}']
termination_by sizeOf entries
decreasing_by
  have h1 := List.sizeOf_lt_of_mem e.2
  have h2 := mapEntryVal_sizeOf e.1
  simp only [Option.some.sizeOf_spec]
  omega

end

/-- Embeds marshalAttribute: comments, key, equals sign, the printed
value, and the constraint group, which is emitted only when the value
satisfies isType. -/
def marshalAttribute (indent : Str) (comments : List Str) (key : Str)
    (value : Option Value) (default : Option Value) (enum : List Value)
    (optional : Bool) : Str :=
  let vw := marshalValue indent value
  let constraints :=
    if (value.map isType).getD false then
      (if optional then [gs "optional"] else []) ++
      (match default with
       | some d => [gs "default(" ++ valueString d ++ [')']]
       | none => []) ++
      (if enum.isEmpty then []
       else [gs "enum(" ++ goJoinSep (gs ", ") (enum.map valueString) ++ [')']])
    else []
  marshalComments indent comments ++ indent ++ key ++ gs " = " ++ vw ++
    (if constraints.isEmpty then [] else '(' :: goJoinSep (gs " ") constraints ++ [')']) ++
    ['\n']

/-- Embeds the label-printing loop of marshalBlock, including the
column-80 wrap that resets the running width without counting the label
just printed. -/
def marshalBlockLabels (labelIndent : Nat) : List Str → Nat → Nat → Str
  | [], _, _ => []
  | label :: rest, i, size =>
    let text := goQuote label
    let size2 := size + text.length
    if i > 0 ∧ size2 + 2 ≥ 80 then
      (gs "\n " ++ List.replicate labelIndent ' ') ++ text ++
        marshalBlockLabels labelIndent rest (i + 1) labelIndent
    else
      (' ' :: text) ++ marshalBlockLabels labelIndent rest (i + 1) size2

mutual

/-- Embeds the loop of marshalEntries: blocks are separated from any
preceding entry by a blank line, attributes only from a preceding
non-attribute; recursion markers print a recursive comment, and a
Comment entry panics in Go, modelled as an error. -/
def marshalEntriesGo (indent : Str) (entries : List Entry) (i : Nat) (prevAttr : Bool) :
    Except Str Str :=
  match entries with
  | [] => .ok []
  | entry :: rest =>
    match entry with
    | .block p c n r lb body t =>
      let pre : Str := if i > 0 then ['\n'] else []
      match marshalBlock indent c n r lb body t with
      | .error e => .error e
      | .ok bs =>
        match marshalEntriesGo indent rest (i + 1) false with
        | .error e => .error e
        | .ok restS => .ok (pre ++ bs ++ restS)
    | .attribute _ c k v d en o =>
      let pre : Str := if !prevAttr then ['\n'] else []
      match marshalEntriesGo indent rest (i + 1) true with
      | .error e => .error e
      | .ok restS => .ok (pre ++ marshalAttribute indent c k v d en o ++ restS)
    | .recursiveEntry =>
      match marshalEntriesGo indent rest (i + 1) prevAttr with
      | .error e => .error e
      | .ok restS => .ok (indent ++ gs "// (recursive)\n" ++ restS)
    | .comment _ _ _ => .error (gs "panic: ??")

/-- Embeds marshalBlock: comments, the header with the repeated marker
and quoted labels (wrapped at column 80), the body at a deeper indent
and the closing brace. -/
def marshalBlock (indent : Str) (comments : List Str) (name : Str) (repeated : Bool)
    (labels : List Str) (body : List Entry) (_trailing : List Str) : Except Str Str :=
  let prefixStr := indent ++ name
  let header := marshalComments indent comments ++ prefixStr ++
    (if repeated then gs "(repeated)" else []) ++
    marshalBlockLabels prefixStr.length labels 0 prefixStr.length ++ gs " \x7b\n"
  match marshalEntriesGo (indent ++ gs "  ") body 0 true with
  | .error e => .error e
  | .ok bodyS => .ok (header ++ bodyS ++ indent ++ '}' :: ['\n'])

end

/-- Embeds marshalEntries: the loop started with no previous entry and
the previous-attribute flag set. -/
def marshalEntries (indent : Str) (entries : List Entry) : Except Str Str :=
  marshalEntriesGo indent entries 0 true

/-- Embeds marshalAST: the entries followed by the trailing comments. -/
def marshalAST (indent : Str) (node : AST) : Except Str Str :=
  match marshalEntries indent node.entries with
  | .error e => .error e
  | .ok s => .ok (s ++ marshalComments indent node.trailingComments)

/-- A valid AST holding a single attribute that carries the parsed
schema-constraint marker optional on a boolean value, as produced by
parsing the text a = true (optional). -/
def cexOptionalAST : AST :=
  ⟨Pos.zero, [.attribute Pos.zero [] (gs "a") (some (.bool Pos.zero true)) none [] true],
    [], false⟩

/-- The same AST with the optional marker cleared, as produced by
parsing the text a = true. -/
def cexPlainAST : AST :=
  ⟨Pos.zero, [.attribute Pos.zero [] (gs "a") (some (.bool Pos.zero true)) none [] false],
    [], false⟩

/-- A heap of big.Float cells, addressed by reference; models the
pointer structure that the tree-shaped Value model cannot express. -/
def Store := Nat → Rat

/-- Reading the big.Float a reference points at. -/
def storeRead (st : Store) (r : Nat) : Rat := st r

/-- Writing the big.Float a reference points at; models both
z.Copy(x) (write the value of x into z) and mutators such as
SetInt64. -/
def storeWrite (st : Store) (r : Nat) (q : Rat) : Store :=
  fun x => if x = r then q else st x

/-- A Number as the Go code holds it: a position and a pointer to a
big.Float cell. -/
structure NumberP where
  pos : Pos
  ref : Nat

/-- Embeds Number.Clone: clone := n copies the struct, so the clone
holds the same big.Float pointer; clone.Float.Copy(n.Float) then writes
the value behind that shared pointer with itself. The function returns
the clone and the heap after the call. -/
def numberClone (st : Store) (n : NumberP) : NumberP × Store :=
  let clone : NumberP := n
  (clone, storeWrite st clone.ref (storeRead st n.ref))

/-- Embeds cloneStrings: a fresh slice with the same elements, which in
value semantics is the identity. -/
def cloneStrings (s : List Str) : List Str := s

mutual

/-- Embeds the Clone methods of the Value variants as tree copies (the
big.Float aliasing of Number.Clone lives in the store model above,
which the by-value tree cannot express). -/
def valueClone : Value → Value
  | .bool p b => .bool p b
  | .number p q => .number p q
  | .str p s => .str p s
  | .typ p t => .typ p t
  | .heredoc p d doc => .heredoc p d doc
  | .list p elems => .list p (valueCloneList elems)
  | .map p entries => .map p (mapEntryCloneList entries)

/-- Clones of a list of values. -/
def valueCloneList : List Value → List Value
  | [] => []
  | v :: rest => valueClone v :: valueCloneList rest

/-- Embeds MapEntry.Clone over a list of entries. -/
def mapEntryCloneList : List MapEntry → List MapEntry
  | [] => []
  | .mk p c k v :: rest => .mk p (cloneStrings c) (valueClone k) (valueClone v) :: mapEntryCloneList rest

end

/-- Embeds Attribute.Clone: the constructed copy lists Pos, Comments,
Key, Value and Optional, and omits the Default and Enum fields, which
therefore hold their zero values in the clone. -/
def attributeClone : Entry → Entry
  | .attribute pos comments key value _default _enum optional =>
    .attribute pos (cloneStrings comments) key (value.map valueClone) none [] optional
  | e => e

theorem splitOnNl_ne_nil (s : Str) : splitOnNl s ≠ [] := by
  induction s with
  | nil => simp [splitOnNl]
  | cons c rest ih =>
    simp only [splitOnNl]
    split
    · simp
    · cases h : splitOnNl rest <;> simp

/-- The indent computed by dedent is the whitespace run of one of the
lines, and no line has a strictly shorter whitespace run. -/
theorem dedent_indent_spec (first : Str) (rest : List Str) :
    ∃ p, (p = whitespacePre first ∨ ∃ line ∈ rest, p = whitespacePre line) ∧
      p.length ≤ (whitespacePre first).length ∧
      (∀ line ∈ rest, p.length ≤ (whitespacePre line).length) ∧
      rest.foldl
        (fun ind line =>
          let candidate := whitespacePre line
          if candidate.length < ind.length then candidate else ind)
        (whitespacePre first) = p := by
  induction rest generalizing first with
  | nil => exact ⟨whitespacePre first, Or.inl rfl, le_refl _, by simp, rfl⟩
  | cons line rest ih =>
    by_cases h : (whitespacePre line).length < (whitespacePre first).length
    · obtain ⟨p, hmem, hfst, hall, heq⟩ := ih line
      refine ⟨p, ?_, ?_, ?_, ?_⟩
      · rcases hmem with h1 | ⟨l, hl, hp⟩
        · exact Or.inr ⟨line, by simp, h1⟩
        · exact Or.inr ⟨l, by simp [hl], hp⟩
      · exact le_of_lt (lt_of_le_of_lt hfst h)
      · intro l hl
        rcases List.mem_cons.mp hl with h1 | h2
        · exact h1 ▸ hfst
        · exact hall l h2
      · simpa [h] using heq
    · obtain ⟨p, hmem, hfst, hall, heq⟩ := ih first
      refine ⟨p, ?_, hfst, ?_, ?_⟩
      · rcases hmem with h1 | ⟨l, hl, hp⟩
        · exact Or.inl h1
        · exact Or.inr ⟨l, by simp [hl], hp⟩
      · intro l hl
        rcases List.mem_cons.mp hl with h1 | h2
        · exact h1 ▸ le_trans hfst (le_of_not_lt h)
        · exact hall l h2
      · simpa [h] using heq

theorem headD_cons_drop {α : Type} (l : List α) (d : α) (h : l ≠ []) :
    l = l.headD d :: l.drop 1 := by
  cases l with
  | nil => exact absurd rfl h
  | cons a t => rfl

/-- C5. A heredoc whose delimiter begins with a dash has the minimal
leading-whitespace run (over all body lines) trimmed from each line; any
other delimiter returns the body (the text after the leading-newline
lexing artefact) verbatim; and the concrete dash-delimited heredoc with
two tab-indented lines yields the lines with the tabs removed. -/
theorem getHeredoc_spec (delimiter body : Str) :
    (∀ rest, delimiter = '-' :: rest →
      ∃ p, (∃ line ∈ splitOnNl body, p = whitespacePre line) ∧
        (∀ line ∈ splitOnNl body, p.length ≤ (whitespacePre line).length) ∧
        getHeredoc delimiter ('\n' :: body) =
          goJoinNl ((splitOnNl body).map (goTrimPre p))) ∧
    (delimiter ≠ [] → delimiter.head? ≠ some '-' →
      getHeredoc delimiter ('\n' :: body) = body) ∧
    getHeredoc (gs "-EOF") ('\n' :: gs "\tsome thing\n\tor another") =
      gs "some thing\nor another" := by
  refine ⟨?_, ?_, by decide⟩
  · intro rest hdelim
    obtain ⟨p, hmem, hfst, hall, heq⟩ :=
      dedent_indent_spec ((splitOnNl body).headD []) ((splitOnNl body).drop 1)
    have hsplit := headD_cons_drop (splitOnNl body) [] (splitOnNl_ne_nil body)
    refine ⟨p, ?_, ?_, ?_⟩
    · rcases hmem with h1 | ⟨l, hl, hp⟩
      · exact ⟨(splitOnNl body).headD [], by rw [hsplit]; exact List.mem_cons_self _ _, h1⟩
      · exact ⟨l, by rw [hsplit]; exact List.mem_cons_of_mem _ hl, hp⟩
    · intro line hline
      rw [hsplit] at hline
      rcases List.mem_cons.mp hline with h1 | h2
      · exact h1 ▸ hfst
      · exact hall line h2
    · subst hdelim
      show dedent body = _
      simp only [dedent]
      rw [heq]
  · intro hne hhead
    cases delimiter with
    | nil => exact absurd rfl hne
    | cons c rest =>
      have hc : ¬c = '-' := by
        intro h
        exact hhead (by simp [h])
      simp [getHeredoc, hc]

/-- Witness for getHeredoc_spec: instantiates the dash-delimiter branch at
the scenario-D heredoc and the verbatim branch at a plain delimiter. -/
theorem getHeredoc_spec_witness :
    (∃ p, (∃ line ∈ splitOnNl (gs "\tsome thing\n\tor another"),
        p = whitespacePre line) ∧
      (∀ line ∈ splitOnNl (gs "\tsome thing\n\tor another"),
        p.length ≤ (whitespacePre line).length) ∧
      getHeredoc (gs "-EOF") ('\n' :: gs "\tsome thing\n\tor another") =
        goJoinNl ((splitOnNl (gs "\tsome thing\n\tor another")).map (goTrimPre p))) ∧
    getHeredoc (gs "EOF") ('\n' :: gs "abc") = gs "abc" :=
  ⟨(getHeredoc_spec (gs "-EOF") (gs "\tsome thing\n\tor another")).1 (gs "EOF") rfl,
   (getHeredoc_spec (gs "EOF") (gs "abc")).2.1 (by decide) (by decide)⟩

/-- C10. BareBooleanAttributes and AllowExtra set their flags to true for
every boolean argument, so passing false does not disable the behaviour. -/
theorem bareAttr_allowExtra_ignore_argument (v : Bool) (options : marshalState) :
    (BareBooleanAttributes v options).bareAttr = true ∧
    (AllowExtra v options).allowExtra = true ∧
    (BareBooleanAttributes false options).bareAttr =
      (BareBooleanAttributes true options).bareAttr ∧
    (AllowExtra false options).allowExtra = (AllowExtra true options).allowExtra :=
  ⟨rfl, rfl, rfl, rfl⟩

/-- C4 counterexample: the first comment is line-adjacent to the second
comment, so the pass drops it entirely; its lines are attached to no
entry and it does not remain as a detached standalone entry, contrary to
the claim. -/
theorem populateAttachedComments_cex :
    populateAttachedCommentsInEntries [cexCommentA, cexCommentB, cexBlock] =
      [.block ⟨13, 3, 1⟩ [gs " b"] (gs "foo") false [] [] []] ∧
    cexCommentA ∉
      populateAttachedCommentsInEntries [cexCommentA, cexCommentB, cexBlock] := by
  constructor
  · rfl
  · intro hmem
    rw [show populateAttachedCommentsInEntries [cexCommentA, cexCommentB, cexBlock] =
      [.block ⟨13, 3, 1⟩ [gs " b"] (gs "foo") false [] [] []] from rfl] at hmem
    simp only [List.mem_singleton, cexCommentA] at hmem
    cases hmem

theorem attachedCommentsGo_eq (l : List Entry) :
    ∀ e, populateAttachedCommentsGo e l = attachedCommentsAmendedGo e l := by
  induction l with
  | nil => intro e; rfl
  | cons next rest ih =>
    intro e
    rcases e with ⟨p, c, k, v, d, en, o⟩ | ⟨p, c, n, r, lb, b, t⟩ | ⟨pos, endPos, lines⟩ | _
    · simp only [populateAttachedCommentsGo, attachedCommentsAmendedGo]
      rw [ih]
    · simp only [populateAttachedCommentsGo, attachedCommentsAmendedGo]
      rw [ih]
    · by_cases hadj : next.position.line = endPos.line + 1
      · simp only [populateAttachedCommentsGo, attachedCommentsAmendedGo, if_pos hadj]
        cases next <;> simp only [Entry.attachComments] <;> exact ih _
      · simp only [populateAttachedCommentsGo, attachedCommentsAmendedGo, if_neg hadj]
        rw [ih]
    · simp only [populateAttachedCommentsGo, attachedCommentsAmendedGo]
      rw [ih]

/-- C4 amended. The comment-attachment pass behaves exactly as the
amended claim describes: line-adjacent comments are dropped, with their
lines appended to the following entry only when it is a block or an
attribute (and discarded when the adjacent successor is itself a comment
or a recursive marker); non-adjacent comments remain detached. -/
theorem populateAttachedComments_amended (entries : List Entry) :
    populateAttachedCommentsInEntries entries = attachedCommentsAmendedSpec entries := by
  cases entries with
  | nil => rfl
  | cons e rest => exact attachedCommentsGo_eq rest e

theorem findVisit_eq (names : List Str) (n : Node) :
    ∀ acc, findVisit names n acc =
      acc ++ (preorder n).filter (matchesName names) := by
  induction n using preorder.induct with
  | _ n ih =>
    intro acc
    rw [findVisit, preorder]
    have aux : ∀ (l : List {c // c ∈ Node.children n}) (a : List Node),
        (∀ c ∈ l, c ∈ (Node.children n).attach) →
        l.foldl (fun a c => findVisit names c.1 a) a =
          a ++ (l.flatMap (fun c => preorder c.1)).filter (matchesName names) := by
      intro l
      induction l with
      | nil => intro a _; simp
      | cons c cs ihl =>
        intro a hmem
        simp only [List.foldl_cons, List.flatMap_cons, List.filter_append]
        rw [ih c, ihl _ (fun x hx => hmem x (List.mem_cons_of_mem _ hx)),
          List.append_assoc]
    rw [aux _ _ (fun x hx => hx), List.filter_cons]
    by_cases hm : matchesName names n
    · simp [hm, List.append_assoc]
    · simp [hm]

/-- C6. Find returns exactly the nodes of the children()-tree rooted at
the given node that match one of the names (blocks by name, attributes
by key, map entries by string key), in pre-order traversal order. -/
theorem Find_eq_preorder_filter (n : Node) (names : List Str) :
    Find n names = (preorder n).filter (matchesName names) := by
  simpa using findVisit_eq names n []

theorem assocGet_put_same {β : Type} (k : Str) (v : β) (m : List (Str × β)) :
    assocGet k (assocPut k v m) = some v := by
  induction m with
  | nil => simp [assocGet, assocPut]
  | cons p rest ih =>
    obtain ⟨k2, v2⟩ := p
    by_cases h : k2 = k
    · simp [assocGet, assocPut, h]
    · simp [assocGet, assocPut, h, ih]

theorem assocGet_put_other {β : Type} {k k2 : Str} (v : β) (m : List (Str × β))
    (h : k ≠ k2) : assocGet k2 (assocPut k v m) = assocGet k2 m := by
  induction m with
  | nil => simp [assocGet, assocPut, h]
  | cons p rest ih =>
    obtain ⟨k3, v3⟩ := p
    by_cases h3 : k3 = k
    · subst h3
      simp [assocGet, assocPut, h]
    · simp only [assocPut, if_neg h3]
      by_cases h4 : k3 = k2 <;> simp [assocGet, h3, h4, ih]

theorem bucketsOK_put {m : List (Str × List Entry)} (k : Str) {es : List Entry}
    (hm : bucketsOK m) (hne : es ≠ []) : bucketsOK (assocPut k es m) := by
  induction m with
  | nil =>
    intro p hp
    simp only [assocPut, List.mem_singleton] at hp
    subst hp
    exact hne
  | cons q rest ih =>
    obtain ⟨k2, v2⟩ := q
    intro p hp
    by_cases h : k2 = k
    · simp only [assocPut, if_pos h, List.mem_cons] at hp
      rcases hp with rfl | hp
      · exact hne
      · exact hm _ (List.mem_cons_of_mem _ hp)
    · simp only [assocPut, if_neg h, List.mem_cons] at hp
      rcases hp with rfl | hp
      · exact hm _ (List.mem_cons_self _ _)
      · exact ih (fun q hq => hm q (List.mem_cons_of_mem _ hq)) p hp

theorem assocGet_mem {β : Type} {k : Str} {v : β} {m : List (Str × β)}
    (h : assocGet k m = some v) : ∃ p ∈ m, p.1 = k ∧ p.2 = v := by
  induction m with
  | nil => cases h
  | cons q rest ih =>
    obtain ⟨k2, v2⟩ := q
    by_cases hk : k2 = k
    · refine ⟨(k2, v2), List.mem_cons_self _ _, hk, ?_⟩
      simpa [assocGet, hk] using h
    · obtain ⟨p, hp, hpe⟩ := ih (by simpa [assocGet, hk] using h)
      exact ⟨p, List.mem_cons_of_mem _ hp, hpe⟩

/-- When the collection loop succeeds, every remaining entry agrees in
block-ness with the head of any existing bucket under its key, and any
two remaining entries sharing a key agree in block-ness. -/
theorem collectEntriesGo_ok_consistent (entries : List Entry) :
    ∀ (m : List (Str × List Entry)) (seen : List (Str × Entry)) res,
      bucketsOK m →
      collectEntriesGo m seen entries = .ok res →
      (∀ x ∈ entries, ∀ es, assocGet x.entryKey m = some es →
        x.isBlockEntry = (es.headD Entry.recursiveEntry).isBlockEntry) ∧
      (∀ x ∈ entries, ∀ y ∈ entries, x.entryKey = y.entryKey →
        x.isBlockEntry = y.isBlockEntry) := by
  induction entries with
  | nil => intro m seen res hbok hok; exact ⟨by simp, by simp⟩
  | cons e rest ih =>
    intro m seen res hbok hok
    rw [collectEntriesGo] at hok
    cases hget : assocGet e.entryKey m with
    | some existing =>
      rw [hget] at hok
      simp only at hok
      by_cases hmis :
          (existing.headD Entry.recursiveEntry).isBlockEntry ≠ e.isBlockEntry
      · rw [if_pos hmis] at hok
        cases hok
      · rw [if_neg hmis] at hok
        push_neg at hmis
        have hbok2 : bucketsOK (assocPut e.entryKey (existing ++ [e]) m) :=
          bucketsOK_put _ hbok (by simp)
        obtain ⟨ih1, ih2⟩ := ih _ _ res hbok2 hok
        have hexne : existing ≠ [] := by
          obtain ⟨p, hp, _, hpe⟩ := assocGet_mem hget
          exact hpe ▸ hbok p hp
        have hhead : ((existing ++ [e]).headD Entry.recursiveEntry) =
            (existing.headD Entry.recursiveEntry) := by
          cases existing with
          | nil => exact absurd rfl hexne
          | cons a t => rfl
        have key1 : ∀ x ∈ rest, x.entryKey = e.entryKey →
            x.isBlockEntry = (existing.headD Entry.recursiveEntry).isBlockEntry := by
          intro x hx hk
          have := ih1 x hx (existing ++ [e]) (by rw [hk, assocGet_put_same])
          rw [this, hhead]
        refine ⟨?_, ?_⟩
        · intro x hx es hes
          rcases List.mem_cons.mp hx with rfl | hx2
          · have hese : es = existing := by
              have := hes.symm.trans hget
              exact Option.some.inj this
            rw [hese]
            exact hmis.symm
          · by_cases hk : x.entryKey = e.entryKey
            · have hese : es = existing := by
                rw [hk] at hes
                exact Option.some.inj (hes.symm.trans hget)
              rw [hese]
              exact key1 x hx2 hk
            · exact ih1 x hx2 es
                (by rw [assocGet_put_other _ _ (fun hh => hk hh.symm), hes])
        · intro x hx y hy hkey
          rcases List.mem_cons.mp hx with rfl | hx2 <;>
            rcases List.mem_cons.mp hy with rfl | hy2
          · rfl
          · rw [key1 y hy2 hkey.symm]
            exact hmis.symm
          · rw [key1 x hx2 hkey]
            exact hmis
          · exact ih2 x hx2 y hy2 hkey
    | none =>
      rw [hget] at hok
      simp only at hok
      have hbok2 : bucketsOK (assocPut e.entryKey [e] m) :=
        bucketsOK_put _ hbok (by simp)
      obtain ⟨ih1, ih2⟩ := ih _ _ res hbok2 hok
      have key1 : ∀ x ∈ rest, x.entryKey = e.entryKey →
          x.isBlockEntry = e.isBlockEntry := by
        intro x hx hk
        have := ih1 x hx [e] (by rw [hk, assocGet_put_same])
        simpa using this
      refine ⟨?_, ?_⟩
      · intro x hx es hes
        rcases List.mem_cons.mp hx with rfl | hx2
        · rw [hes] at hget
          cases hget
        · by_cases hk : x.entryKey = e.entryKey
          · rw [hk] at hes
            rw [hes] at hget
            cases hget
          · exact ih1 x hx2 es
              (by rw [assocGet_put_other _ _ (fun hh => hk hh.symm), hes])
      · intro x hx y hy hkey
        rcases List.mem_cons.mp hx with rfl | hx2 <;>
          rcases List.mem_cons.mp hy with rfl | hy2
        · rfl
        · exact (key1 y hy2 hkey.symm).symm
        · exact key1 x hx2 hkey
        · exact ih2 x hx2 y hy2 hkey

theorem assocPut_mem {β : Type} {k : Str} {v : β} {m : List (Str × β)} {p : Str × β}
    (h : p ∈ assocPut k v m) : p = (k, v) ∨ p ∈ m := by
  induction m with
  | nil => simpa [assocPut] using h
  | cons q rest ih =>
    obtain ⟨k2, v2⟩ := q
    by_cases hk : k2 = k
    · subst hk
      rcases List.mem_cons.mp (by simpa [assocPut] using h) with rfl | hp
      · exact Or.inl rfl
      · exact Or.inr (List.mem_cons_of_mem _ hp)
    · rcases List.mem_cons.mp (by simpa [assocPut, hk] using h) with rfl | hp
      · exact Or.inr (List.mem_cons_self _ _)
      · rcases ih hp with h1 | h1
        · exact Or.inl h1
        · exact Or.inr (List.mem_cons_of_mem _ h1)

theorem headD_mem {α : Type} {l : List α} (d : α) (h : l ≠ []) : l.headD d ∈ l := by
  cases l with
  | nil => exact absurd rfl h
  | cons a t => exact List.mem_cons_self _ _

/-- When the collection loop fails, the reported error names a key under
which the carrier holds two entries of different block-ness, and carries
the positions of those two entries. -/
theorem collectEntriesGo_error_provenance (C : List Entry) (entries : List Entry) :
    ∀ (m : List (Str × List Entry)) (seen : List (Str × Entry)) err,
      (∀ p ∈ m, p.2 ≠ [] ∧ ∀ x ∈ p.2, x ∈ C ∧ x.entryKey = p.1) →
      (∀ x ∈ entries, x ∈ C) →
      collectEntriesGo m seen entries = .error err →
      ∃ e1 ∈ C, ∃ e2 ∈ C, e1.entryKey = err.key ∧ e2.entryKey = err.key ∧
        err.errPos = e1.position ∧ err.msgPos = e2.position ∧
        e1.isBlockEntry ≠ e2.isBlockEntry := by
  induction entries with
  | nil => intro m seen err hinv hC h; cases h
  | cons e rest ih =>
    intro m seen err hinv hC h
    rw [collectEntriesGo] at h
    cases hget : assocGet e.entryKey m with
    | some existing =>
      rw [hget] at h
      simp only at h
      obtain ⟨p, hp, hpk, hpe⟩ := assocGet_mem hget
      obtain ⟨hne, helem⟩ := hinv p hp
      have hexne : existing ≠ [] := hpe ▸ hne
      have hhd : existing.headD Entry.recursiveEntry ∈ existing := headD_mem _ hexne
      obtain ⟨hhdC, hhdk⟩ := helem (existing.headD Entry.recursiveEntry)
        (by rw [hpe]; exact hhd)
      by_cases hmis :
          (existing.headD Entry.recursiveEntry).isBlockEntry ≠ e.isBlockEntry
      · rw [if_pos hmis] at h
        have herr : err = ⟨(existing.headD Entry.recursiveEntry).position,
            e.position, e.entryKey⟩ := (Except.error.inj h).symm
        subst herr
        exact ⟨existing.headD Entry.recursiveEntry, hhdC, e, hC e (List.mem_cons_self _ _),
          hhdk.trans hpk, rfl, rfl, rfl, hmis⟩
      · rw [if_neg hmis] at h
        refine ih _ _ err ?_ (fun x hx => hC x (List.mem_cons_of_mem _ hx)) h
        intro q hq
        rcases assocPut_mem hq with rfl | hq2
        · refine ⟨by simp, ?_⟩
          intro x hx
          rcases List.mem_append.mp hx with hx1 | hx1
          · obtain ⟨hc, hk⟩ := helem x (hpe ▸ hx1)
            exact ⟨hc, hk.trans hpk⟩
          · obtain rfl : x = e := List.mem_singleton.mp hx1
            exact ⟨hC _ (List.mem_cons_self _ _), rfl⟩
        · exact hinv q hq2
    | none =>
      rw [hget] at h
      simp only at h
      refine ih _ _ err ?_ (fun x hx => hC x (List.mem_cons_of_mem _ hx)) h
      intro q hq
      rcases assocPut_mem hq with rfl | hq2
      · refine ⟨by simp, ?_⟩
        intro x hx
        obtain rfl : x = e := List.mem_singleton.mp hx
        exact ⟨hC _ (List.mem_cons_self _ _), rfl⟩
      · exact hinv q hq2

theorem isAttributeEntry_of_key_ne_nil {e : Entry} (hk : e.entryKey ≠ [])
    (hb : e.isBlockEntry = false) : e.isAttributeEntry = true := by
  cases e with
  | block p c n r l b t => cases hb
  | comment p ep c => exact absurd rfl hk
  | recursiveEntry => exact absurd rfl hk
  | _ => rfl

theorem isBlockEntry_false_of_attr {e : Entry} (h : e.isAttributeEntry = true) :
    e.isBlockEntry = false := by
  cases e <;> first | rfl | cases h

/-- C2. If an entry list contains a block and an attribute sharing a key
(entries being parser-produced: no schema-recursion markers, and every
block or attribute carries a nonempty key), the entry-collection phase of
unmarshalEntries fails with an error that names a shared key and carries
the positions of two conflicting entries under it, one a block and the
other an attribute: the error position is the position of the first
entry seen under the key and the message embeds the position of the
later conflicting entry together with the text that the key cannot be
both block and attribute. -/
theorem unmarshalEntries_blockAttrConflict (entries : List Entry)
    (hnorec : ∀ e ∈ entries, e.isRecursiveEntry = false)
    (hnamed : ∀ e ∈ entries,
      (e.isBlockEntry = true ∨ e.isAttributeEntry = true) → e.entryKey ≠ [])
    (hconf : ∃ b ∈ entries, ∃ a ∈ entries, b.isBlockEntry = true ∧
      a.isAttributeEntry = true ∧ b.entryKey = a.entryKey) :
    ∃ err, collectEntries entries = .error err ∧
      ∃ e1 ∈ entries, ∃ e2 ∈ entries, e1.entryKey = err.key ∧ e2.entryKey = err.key ∧
        err.errPos = e1.position ∧ err.msgPos = e2.position ∧
        ((e1.isBlockEntry = true ∧ e2.isAttributeEntry = true) ∨
         (e1.isAttributeEntry = true ∧ e2.isBlockEntry = true)) := by
  obtain ⟨b, hb, a, ha, hbblock, haattr, hkey⟩ := hconf
  cases hres : collectEntries entries with
  | ok res =>
    obtain ⟨_, hcons⟩ := collectEntriesGo_ok_consistent entries [] [] res
      (by intro p hp; cases hp) hres
    have := hcons b hb a ha hkey
    rw [hbblock, isBlockEntry_false_of_attr haattr] at this
    cases this
  | error err =>
    obtain ⟨e1, he1, e2, he2, hk1, hk2, hp1, hp2, hne⟩ :=
      collectEntriesGo_error_provenance entries entries [] [] err
        (by intro p hp; cases hp) (fun x hx => hx) hres
    have hkeyne : err.key ≠ [] := by
      rw [← hk1]
      cases h1 : e1.isBlockEntry with
      | true => exact hnamed e1 he1 (Or.inl h1)
      | false =>
        cases h2 : e2.isBlockEntry with
        | true =>
          rw [hk1, ← hk2]
          exact hnamed e2 he2 (Or.inl h2)
        | false => rw [h1, h2] at hne; exact absurd rfl hne
    refine ⟨err, rfl, e1, he1, e2, he2, hk1, hk2, hp1, hp2, ?_⟩
    cases h1 : e1.isBlockEntry with
    | true =>
      refine Or.inl ⟨rfl, ?_⟩
      apply isAttributeEntry_of_key_ne_nil (hk2 ▸ hkeyne)
      rw [h1] at hne
      cases h2 : e2.isBlockEntry with
      | true => rw [h2] at hne; exact absurd rfl hne
      | false => rfl
    | false =>
      refine Or.inr ⟨isAttributeEntry_of_key_ne_nil (hk1 ▸ hkeyne) h1, ?_⟩
      rw [h1] at hne
      cases h2 : e2.isBlockEntry with
      | true => rfl
      | false => rw [h2] at hne; exact absurd rfl hne

/-- Witness for the block-versus-attribute conflict theorem: scenario C
of the specification, an attribute named name on line 1 followed by a
block named name on line 2. -/
theorem unmarshalEntries_blockAttrConflict_witness :
    ∃ err, collectEntries
        [Entry.attribute ⟨0, 1, 1⟩ [] (gs "name") (some (.str ⟨7, 1, 8⟩ (gs "foo"))) none [] false,
         Entry.block ⟨13, 2, 1⟩ [] (gs "name") false [] [] []] = .error err ∧
      ∃ e1 ∈ [Entry.attribute ⟨0, 1, 1⟩ [] (gs "name")
            (some (.str ⟨7, 1, 8⟩ (gs "foo"))) none [] false,
          Entry.block ⟨13, 2, 1⟩ [] (gs "name") false [] [] []],
        ∃ e2 ∈ [Entry.attribute ⟨0, 1, 1⟩ [] (gs "name")
            (some (.str ⟨7, 1, 8⟩ (gs "foo"))) none [] false,
          Entry.block ⟨13, 2, 1⟩ [] (gs "name") false [] [] []],
        e1.entryKey = err.key ∧ e2.entryKey = err.key ∧
        err.errPos = e1.position ∧ err.msgPos = e2.position ∧
        ((e1.isBlockEntry = true ∧ e2.isAttributeEntry = true) ∨
         (e1.isAttributeEntry = true ∧ e2.isBlockEntry = true)) :=
  unmarshalEntries_blockAttrConflict _ (by decide) (by decide) (by decide)

/-- Every tag produced by parseTag that declares a default is optional:
a lone name is optional exactly when a default is present, and every
option keyword that keeps the default sets optional. -/
theorem parseTag_default_optional (f : GoStructField) (opt : marshalState) (t : tag)
    (h : parseTag f opt = some t) (hd : t.defaultValue ≠ []) : t.optional = true := by
  simp only [parseTag] at h
  split at h <;> try split at h <;> try split at h <;> try split at h <;>
    try split at h <;> try split at h <;> try split at h <;> try split at h <;>
    try split at h
  all_goals first
    | (cases h; first | rfl | simpa using hd)
    | cases h

/-- C3. For every descriptor produced by parseTag with a nonempty name
that is neither a label nor a remain field, the missing-entry branch of
unmarshalEntries behaves exactly as the claim orders it: a declared
default is parsed by the field-type rules, validated against the enum
(a violation is an error) and assigned; otherwise a non-optional
descriptor fails with the missing-required-attribute error; otherwise
the field is left unchanged. -/
theorem missingFieldStep_follows_spec (fld : GoStructField) (opt : marshalState) (t : tag)
    (f : goField) (cur : GoFieldVal)
    (hparse : parseTag fld opt = some t)
    (hname : t.name ≠ []) (hlabel : t.label = false) (hremain : t.remain = false) :
    missingFieldStep f cur t opt = specMissingFieldStep f cur t opt := by
  by_cases hd : t.defaultValue = []
  · simp [missingFieldStep, specMissingFieldStep, hd, defaultValueFromTag, valueFromTag]
  · have hopt : t.optional = true := parseTag_default_optional fld opt t hparse hd
    simp [missingFieldStep, specMissingFieldStep, hopt, hd]

/-- Witness for the missing-entry descriptor theorem: a uint field
tagged hcl port with default 8080; both orderings agree, and the
default is parsed and assigned, producing 8080. -/
theorem missingFieldStep_follows_spec_witness :
    missingFieldStep ⟨gs "Port", .uint, false⟩ (.uint 0)
      { name := gs "port", optional := true, defaultValue := gs "8080" } {} =
      specMissingFieldStep ⟨gs "Port", .uint, false⟩ (.uint 0)
        { name := gs "port", optional := true, defaultValue := gs "8080" } {} ∧
    missingFieldStep ⟨gs "Port", .uint, false⟩ (.uint 0)
      { name := gs "port", optional := true, defaultValue := gs "8080" } {} =
      .ok (.uint 8080) :=
  ⟨missingFieldStep_follows_spec
      ⟨gs "Port", some (gs "port"), none, [], gs "8080", [], false⟩ {} _
      ⟨gs "Port", .uint, false⟩ (.uint 0) (by decide) (by decide) rfl rfl,
    rfl⟩

theorem ratTrunc_eq_floor_of_nonneg {q : Rat} (h : 0 ≤ q) : ratTrunc q = ⌊q⌋ := by
  rw [ratTrunc, Rat.floor_def, Int.tdiv_eq_ediv (Rat.num_nonneg.mpr h) (by positivity)]

/-- C7 counterexample. Unmarshalling the number minus five into an
unsigned-integer field succeeds with the value zero: the negative number
is not rejected, because the Accuracy result of big.Float.Uint64 is
discarded. -/
theorem unmarshalValue_uint_negative_cex :
    unmarshalValue {} .uint (some (.number Pos.zero (-5))) = .ok (.uint 0) := rfl

/-- C7 amended. For every Number value fed to an unsigned-integer field,
unmarshalling succeeds: the value is truncated toward zero and clamped
into the uint64 range, and a negative number underflows to zero instead
of being rejected. -/
theorem unmarshalValue_uint_amended (opt : marshalState) (pos : Pos) (q : Rat) :
    ∃ n : Nat, unmarshalValue opt .uint (some (.number pos q)) = .ok (.uint n) ∧
      (q < 0 → n = 0) ∧
      (0 ≤ q → ((n : Rat) ≤ q ∧ (q ≤ ((2 ^ 64 - 1 : Nat) : Rat) → q < (n : Rat) + 1))) ∧
      (((2 ^ 64 - 1 : Nat) : Rat) < q → n = 2 ^ 64 - 1) := by
  refine ⟨floatUint64 q, rfl, ?_, ?_, ?_⟩
  · intro hq
    simp [floatUint64, hq]
  · intro hq
    have hfl : ratTrunc q = ⌊q⌋ := ratTrunc_eq_floor_of_nonneg hq
    have hfl0 : 0 ≤ ⌊q⌋ := Int.floor_nonneg.mpr hq
    have hT : ((ratTrunc q).toNat : Int) = ⌊q⌋ := by
      rw [hfl]
      exact Int.toNat_of_nonneg hfl0
    have hn : floatUint64 q = min (ratTrunc q).toNat (2 ^ 64 - 1) := by
      simp [floatUint64, not_lt.mpr hq]
    constructor
    · have h1 : ((floatUint64 q : Nat) : Int) ≤ ⌊q⌋ := by
        rw [hn, ← hT]
        exact_mod_cast min_le_left _ _
      have h2 : ((floatUint64 q : Nat) : Rat) ≤ ((⌊q⌋ : Int) : Rat) := by
        exact_mod_cast h1
      exact le_trans h2 (Int.floor_le q)
    · intro hle
      have hTM : ⌊q⌋ ≤ ((2 ^ 64 - 1 : Nat) : Int) := by
        have hmono := Int.floor_le_floor hle
        rwa [Int.floor_natCast] at hmono
      have hmin : min (ratTrunc q).toNat (2 ^ 64 - 1) = (ratTrunc q).toNat := by
        apply min_eq_left
        have hc : ((ratTrunc q).toNat : Int) ≤ ((2 ^ 64 - 1 : Nat) : Int) := by
          rw [hT]
          exact hTM
        exact_mod_cast hc
      rw [hn, hmin]
      have hlt : q < (⌊q⌋ : Rat) + 1 := Int.lt_floor_add_one q
      have heq : ((((ratTrunc q).toNat : Nat) : Rat)) = ((⌊q⌋ : Int) : Rat) := by
        rw [← hT]
        push_cast
        ring
      rw [heq]
      exact hlt
  · intro hM
    have hq : 0 ≤ q := le_trans (Nat.cast_nonneg _) (le_of_lt hM)
    have hfl : ratTrunc q = ⌊q⌋ := ratTrunc_eq_floor_of_nonneg hq
    have hfl0 : 0 ≤ ⌊q⌋ := Int.floor_nonneg.mpr hq
    have hT : ((ratTrunc q).toNat : Int) = ⌊q⌋ := by
      rw [hfl]
      exact Int.toNat_of_nonneg hfl0
    have hMf : ((2 ^ 64 - 1 : Nat) : Int) ≤ ⌊q⌋ := by
      rw [Int.le_floor]
      exact_mod_cast le_of_lt hM
    have hle : (2 ^ 64 - 1 : Nat) ≤ (ratTrunc q).toNat := by
      have hc : ((2 ^ 64 - 1 : Nat) : Int) ≤ ((ratTrunc q).toNat : Int) := by
        rw [hT]
        exact hMf
      exact_mod_cast hc
    simp only [floatUint64, if_neg (not_lt.mpr hq)]
    exact min_eq_right hle

/-- Witness for the amended uint coercion theorem: the number minus five
produces zero without an error. -/
theorem unmarshalValue_uint_amended_witness :
    ∃ n : Nat, unmarshalValue {} .uint (some (.number Pos.zero (-5))) = .ok (.uint n) ∧
      n = 0 := by
  obtain ⟨n, h1, h2, -, -⟩ := unmarshalValue_uint_amended {} Pos.zero (-5)
  exact ⟨n, h1, h2 (by norm_num)⟩

theorem insertSorted_perm (x : Str) (l : List Str) :
    (insertSorted x l).Perm (x :: l) := by
  induction l with
  | nil => exact List.Perm.refl _
  | cons y ys ih =>
    by_cases h : y < x
    · simp only [insertSorted, if_pos h]
      exact (ih.cons y).trans (List.Perm.swap x y ys)
    · simp only [insertSorted, if_neg h]
      exact List.Perm.refl _

theorem sortStrings_perm (l : List Str) : (sortStrings l).Perm l := by
  induction l with
  | nil => exact List.Perm.refl _
  | cons x xs ih =>
    exact (insertSorted_perm x (sortStrings xs)).trans (ih.cons x)

theorem insertSorted_sorted (x : Str) {l : List Str} (h : l.Sorted (· ≤ ·)) :
    (insertSorted x l).Sorted (· ≤ ·) := by
  induction l with
  | nil => simp [insertSorted]
  | cons y ys ih =>
    obtain ⟨hy, hys⟩ := List.sorted_cons.mp h
    by_cases hlt : y < x
    · simp only [insertSorted, if_pos hlt]
      refine List.sorted_cons.mpr ⟨?_, ih hys⟩
      intro b hb
      rcases List.mem_cons.mp ((insertSorted_perm x ys).mem_iff.mp hb) with rfl | hb2
      · exact le_of_lt hlt
      · exact hy b hb2
    · simp only [insertSorted, if_neg hlt]
      refine List.sorted_cons.mpr ⟨?_, h⟩
      intro b hb
      rcases List.mem_cons.mp hb with rfl | hb2
      · exact le_of_not_lt hlt
      · exact le_trans (le_of_not_lt hlt) (hy b hb2)

theorem sortStrings_sorted (l : List Str) : (sortStrings l).Sorted (· ≤ ·) := by
  induction l with
  | nil => simp [sortStrings]
  | cons x xs ih => exact insertSorted_sorted x ih

theorem sortStrings_eq_of_perm {l1 l2 : List Str} (h : l1.Perm l2) :
    sortStrings l1 = sortStrings l2 :=
  List.eq_of_perm_of_sorted
    ((sortStrings_perm l1).trans (h.trans (sortStrings_perm l2).symm))
    (sortStrings_sorted l1) (sortStrings_sorted l2)

theorem insertKey_perm (x : GoKey) (l : List GoKey) :
    (insertKey x l).Perm (x :: l) := by
  induction l with
  | nil => exact List.Perm.refl _
  | cons y ys ih =>
    by_cases h : goKeyString y < goKeyString x
    · simp only [insertKey, if_pos h]
      exact (ih.cons y).trans (List.Perm.swap x y ys)
    · simp only [insertKey, if_neg h]
      exact List.Perm.refl _

theorem sortKeys_perm (l : List GoKey) : (sortKeys l).Perm l := by
  induction l with
  | nil => exact List.Perm.refl _
  | cons x xs ih =>
    exact (insertKey_perm x (sortKeys xs)).trans (ih.cons x)

theorem insertKey_map_goKeyString (x : GoKey) (l : List GoKey) :
    (insertKey x l).map goKeyString =
      insertSorted (goKeyString x) (l.map goKeyString) := by
  induction l with
  | nil => rfl
  | cons y ys ih =>
    by_cases h : goKeyString y < goKeyString x
    · simp [insertKey, insertSorted, h, ih]
    · simp [insertKey, insertSorted, h]

theorem sortKeys_map_goKeyString (l : List GoKey) :
    (sortKeys l).map goKeyString = sortStrings (l.map goKeyString) := by
  induction l with
  | nil => rfl
  | cons x xs ih =>
    simp only [sortKeys, List.foldr_cons, List.map_cons, sortStrings] at ih ⊢
    rw [insertKey_map_goKeyString, ih]

theorem map_inj_on_eq {α β : Type} {f : α → β} :
    ∀ {as bs : List α}, as.map f = bs.map f →
      (∀ a ∈ as, ∀ b ∈ bs, f a = f b → a = b) → as = bs := by
  intro as
  induction as with
  | nil =>
    intro bs h _
    cases bs with
    | nil => rfl
    | cons b bs2 => simp at h
  | cons a as2 ih =>
    intro bs h hinj
    cases bs with
    | nil => simp at h
    | cons b bs2 =>
      simp only [List.map_cons, List.cons.injEq] at h
      obtain ⟨h1, h2⟩ := h
      have hab : a = b := hinj a (List.mem_cons_self _ _) b (List.mem_cons_self _ _) h1
      subst hab
      rw [ih h2 (fun x hx y hy =>
        hinj x (List.mem_cons_of_mem _ hx) y (List.mem_cons_of_mem _ hy))]

theorem sortKeys_eq_of_perm {l1 l2 : List GoKey} (h : l1.Perm l2)
    (hstr : ∀ k ∈ l1, goKeyIsStr k = true) :
    sortKeys l1 = sortKeys l2 := by
  refine @map_inj_on_eq GoKey Str goKeyString _ _ ?_ ?_
  · rw [sortKeys_map_goKeyString, sortKeys_map_goKeyString]
    exact sortStrings_eq_of_perm (h.map goKeyString)
  · intro a ha b hb hab
    have ha2 : a ∈ l1 := (sortKeys_perm l1).mem_iff.mp ha
    have hb2 : b ∈ l1 := h.mem_iff.mpr ((sortKeys_perm l2).mem_iff.mp hb)
    have ha3 := hstr a ha2
    have hb3 := hstr b hb2
    cases a with
    | str sa =>
      cases b with
      | str sb =>
        simp only [goKeyString] at hab
        rw [hab]
      | int m => simp [goKeyIsStr] at hb3
    | int m => simp [goKeyIsStr] at ha3

theorem lookupGoOpt_mem {k : GoKey} {v : GoVal} :
    ∀ {l : List (GoKey × GoVal)}, lookupGoOpt k l = some v → (k, v) ∈ l := by
  intro l
  induction l with
  | nil => intro h; cases h
  | cons p rest ih =>
    obtain ⟨k2, v2⟩ := p
    intro h
    by_cases hk : k2 = k
    · have hv : v2 = v := by simpa [lookupGoOpt, hk] using h
      subst hv
      subst hk
      exact List.mem_cons_self _ _
    · exact List.mem_cons_of_mem _ (ih (by simpa [lookupGoOpt, hk] using h))

theorem lookupGoOpt_isSome_of_mem_keys {k : GoKey} :
    ∀ {l : List (GoKey × GoVal)}, k ∈ l.map Prod.fst → ∃ v, lookupGoOpt k l = some v := by
  intro l
  induction l with
  | nil => intro h; cases h
  | cons p rest ih =>
    obtain ⟨k2, v2⟩ := p
    intro h
    rw [List.map_cons] at h
    by_cases hk : k2 = k
    · exact ⟨v2, by simp [lookupGoOpt, hk]⟩
    · rcases List.mem_cons.mp h with h1 | h1
      · exact absurd h1.symm hk
      · obtain ⟨v, hv⟩ := ih h1
        exact ⟨v, by simp [lookupGoOpt, hk, hv]⟩

theorem valueToValue_slice_eq (opt : marshalState) (elems : List GoVal) :
    valueToValue opt (.slice elems) = .list Pos.zero (elems.map (valueToValue opt)) := by
  rw [valueToValue]
  exact congrArg _ (List.attach_map_val elems (valueToValue opt))

theorem valueToValue_map_eq (opt : marshalState) (entries : List (GoKey × GoVal)) :
    valueToValue opt (.map entries) =
      .map Pos.zero ((sortKeys (entries.map Prod.fst)).map (fun k =>
        match lookupGoOpt k entries with
        | some v => .mk Pos.zero [] (.str Pos.zero (goKeyString k)) (valueToValue opt v)
        | none => .mk Pos.zero [] (.str Pos.zero (goKeyString k)) (.bool Pos.zero false))) := by
  rw [valueToValue]
  refine congrArg _ (List.map_congr_left ?_)
  intro k _
  cases h : lookupGoOpt k entries <;> simp [h]

theorem valueToValue_int_eq (opt : marshalState) (n : Int) :
    valueToValue opt (.int n) = .number Pos.zero (n : Rat) := by
  rw [valueToValue]

theorem attach_all_eq {α : Type} {l : List α} (g : α → Bool) :
    l.attach.all (fun e => g e.1) = l.all g := by
  cases hl : l.all g
  · rw [Bool.eq_false_iff]
    intro hc
    rw [List.all_eq_true] at hc
    have : ∀ x ∈ l, g x = true := fun x hx => hc ⟨x, hx⟩ (List.mem_attach _ _)
    rw [← List.all_eq_true] at this
    rw [hl] at this
    cases this
  · rw [List.all_eq_true] at hl ⊢
    exact fun e _ => hl e.1 e.2

theorem stringKeyed_slice_eq (elems : List GoVal) :
    stringKeyed (.slice elems) = elems.all stringKeyed := by
  rw [stringKeyed]
  exact attach_all_eq stringKeyed

theorem stringKeyed_map_eq (entries : List (GoKey × GoVal)) :
    stringKeyed (.map entries) =
      entries.all (fun p => goKeyIsStr p.1 && stringKeyed p.2) := by
  rw [stringKeyed]
  exact attach_all_eq (fun p : GoKey × GoVal => goKeyIsStr p.1 && stringKeyed p.2)

theorem stringKeyed_int (n : Int) : stringKeyed (.int n) = true := by
  rw [stringKeyed]

theorem mapsSorted_map_eq (p : Pos) (entries : List MapEntry) :
    mapsSorted (.map p entries) =
      (strSortedLe (entries.map mapEntryKeyStr) &&
        entries.all (fun e => mapsSorted (mapEntryKey e) && mapsSorted (mapEntryVal e))) := by
  rw [mapsSorted]
  refine congrArg _ ?_
  exact attach_all_eq (fun x => mapsSorted (mapEntryKey x) && mapsSorted (mapEntryVal x))

theorem mapsSorted_list_eq (p : Pos) (elems : List Value) :
    mapsSorted (.list p elems) = elems.all mapsSorted := by
  rw [mapsSorted]
  exact attach_all_eq mapsSorted

theorem strSortedLe_of_sorted : ∀ {l : List Str}, l.Sorted (· ≤ ·) → strSortedLe l = true := by
  intro l
  induction l with
  | nil => intro _; rfl
  | cons a t ih =>
    intro h
    obtain ⟨ha, ht⟩ := List.sorted_cons.mp h
    cases t with
    | nil => rfl
    | cons b t2 =>
      simp only [strSortedLe, Bool.and_eq_true, decide_eq_true_eq]
      exact ⟨ha b (List.mem_cons_self _ _), ih ht⟩

theorem map_valueToValue_zip (opt : marshalState) (n : Nat)
    (hrec : ∀ x y, sizeOf x < n → stringKeyed x = true → ReprEquiv x y →
      valueToValue opt x = valueToValue opt y) :
    ∀ (as bs : List GoVal), as.length = bs.length →
      (∀ p ∈ as.zip bs, ReprEquiv p.1 p.2) → (∀ a ∈ as, sizeOf a < n) →
      (∀ a ∈ as, stringKeyed a = true) →
      as.map (valueToValue opt) = bs.map (valueToValue opt) := by
  intro as
  induction as with
  | nil =>
    intro bs hlen _ _ _
    cases bs with
    | nil => rfl
    | cons b bs2 => simp at hlen
  | cons a as2 ih =>
    intro bs hlen hzip hsizes hstrs
    cases bs with
    | nil => simp at hlen
    | cons b bs2 =>
      simp only [List.map_cons]
      refine congrArg₂ _ ?_ ?_
      · exact hrec a b (hsizes a (List.mem_cons_self _ _))
          (hstrs a (List.mem_cons_self _ _)) (hzip (a, b) (by simp))
      · exact ih bs2 (by simpa using hlen) (fun q hq => hzip q (by simp [hq]))
          (fun x hx => hsizes x (List.mem_cons_of_mem _ hx))
          (fun x hx => hstrs x (List.mem_cons_of_mem _ hx))

/-- Marshalling respects the map-iteration-order equivalence on
string-keyed values: two representations of the same Go value produce
the same AST value. -/
theorem valueToValue_congr (opt : marshalState) (v1 v2 : GoVal)
    (hs : stringKeyed v1 = true) (h : ReprEquiv v1 v2) :
    valueToValue opt v1 = valueToValue opt v2 := by
  suffices H : ∀ (n : Nat) (w1 w2 : GoVal), sizeOf w1 < n → stringKeyed w1 = true →
      ReprEquiv w1 w2 → valueToValue opt w1 = valueToValue opt w2 from
    H (sizeOf v1 + 1) v1 v2 (Nat.lt_succ_self _) hs h
  intro n
  induction n with
  | zero => exact fun w1 w2 hsz _ _ => absurd hsz (Nat.not_lt_zero _)
  | succ n ihn =>
    intro w1 w2 hsz hsk h
    cases h with
    | str s => rfl
    | int m => rfl
    | bool b => rfl
    | slice hlen hzip =>
      rename_i as bs
      rw [valueToValue_slice_eq, valueToValue_slice_eq]
      refine congrArg _ ?_
      have hall : ∀ a ∈ as, stringKeyed a = true := by
        rw [stringKeyed_slice_eq, List.all_eq_true] at hsk
        exact hsk
      refine map_valueToValue_zip opt n (fun x y hx hsx hy => ihn x y hx hsx hy)
        as bs hlen hzip ?_ hall
      intro a ha
      have h1 := List.sizeOf_lt_of_mem ha
      simp only [GoVal.slice.sizeOf_spec] at hsz
      omega
    | map hperm hcross =>
      rename_i as bs
      have hall : ∀ p ∈ as, goKeyIsStr p.1 = true ∧ stringKeyed p.2 = true := by
        rw [stringKeyed_map_eq, List.all_eq_true] at hsk
        intro p hp
        have h2 := hsk p hp
        rw [Bool.and_eq_true] at h2
        exact h2
      have hkeys1 : ∀ k ∈ as.map Prod.fst, goKeyIsStr k = true := by
        intro k hk2
        obtain ⟨p, hp, rfl⟩ := List.mem_map.mp hk2
        exact (hall p hp).1
      rw [valueToValue_map_eq, valueToValue_map_eq, sortKeys_eq_of_perm hperm hkeys1]
      refine congrArg _ (List.map_congr_left ?_)
      intro k hk
      have hkb : k ∈ bs.map Prod.fst := (sortKeys_perm _).mem_iff.mp hk
      have hka : k ∈ as.map Prod.fst := hperm.mem_iff.mpr hkb
      obtain ⟨va, hva⟩ := lookupGoOpt_isSome_of_mem_keys hka
      obtain ⟨vb, hvb⟩ := lookupGoOpt_isSome_of_mem_keys hkb
      rw [hva, hvb]
      have hmema := lookupGoOpt_mem hva
      have hmemb := lookupGoOpt_mem hvb
      have hva_size : sizeOf va < n := by
        have h1 := List.sizeOf_lt_of_mem hmema
        simp only [GoVal.map.sizeOf_spec] at hsz
        simp only [Prod.mk.sizeOf_spec] at h1
        omega
      have hvv := ihn va vb hva_size ((hall (k, va) hmema).2)
        (hcross (k, va) hmema (k, vb) hmemb rfl)
      simp only [hvv]

/-- Every map the marshaller emits lists its entries in ascending key
order, at every nesting level. -/
theorem valueToValue_sorted (opt : marshalState) (v : GoVal) :
    mapsSorted (valueToValue opt v) = true := by
  suffices H : ∀ (n : Nat) (w : GoVal), sizeOf w < n →
      mapsSorted (valueToValue opt w) = true from
    H (sizeOf v + 1) v (Nat.lt_succ_self _)
  intro n
  induction n with
  | zero => exact fun w hsz => absurd hsz (Nat.not_lt_zero _)
  | succ n ihn =>
    intro w hsz
    cases w with
    | str s =>
      rw [valueToValue]
      split <;> simp only [mapsSorted]
    | int m =>
      rw [valueToValue]
      simp only [mapsSorted]
    | bool b =>
      rw [valueToValue]
      simp only [mapsSorted]
    | slice elems =>
      rw [valueToValue_slice_eq, mapsSorted_list_eq, List.all_eq_true]
      intro x hx
      obtain ⟨a, ha, rfl⟩ := List.mem_map.mp hx
      have h1 := List.sizeOf_lt_of_mem ha
      simp only [GoVal.slice.sizeOf_spec] at hsz
      exact ihn a (by omega)
    | map entries =>
      rw [valueToValue_map_eq, mapsSorted_map_eq, Bool.and_eq_true]
      refine ⟨?_, ?_⟩
      · have hkeys : (((sortKeys (entries.map Prod.fst)).map (fun k =>
            match lookupGoOpt k entries with
            | some v => MapEntry.mk Pos.zero [] (.str Pos.zero (goKeyString k))
                (valueToValue opt v)
            | none => MapEntry.mk Pos.zero [] (.str Pos.zero (goKeyString k))
                (.bool Pos.zero false))).map mapEntryKeyStr) =
            (sortKeys (entries.map Prod.fst)).map goKeyString := by
          rw [List.map_map]
          refine List.map_congr_left ?_
          intro k _
          cases h : lookupGoOpt k entries <;> simp [h, mapEntryKeyStr]
        rw [hkeys, sortKeys_map_goKeyString]
        exact strSortedLe_of_sorted (sortStrings_sorted _)
      · rw [List.all_eq_true]
        intro e he
        obtain ⟨k, hkmem, rfl⟩ := List.mem_map.mp he
        cases h : lookupGoOpt k entries with
        | some v =>
          have hv_size : sizeOf v < n := by
            have h1 := lookupGoOpt_sizeOf h
            simp only [GoVal.map.sizeOf_spec] at hsz
            omega
          simp only [h, mapEntryKey, mapEntryVal, Bool.and_eq_true]
          exact ⟨by simp only [mapsSorted], ihn v hv_size⟩
        | none =>
          simp [h, mapEntryKey, mapEntryVal, mapsSorted]

/-- C9. Counterexample to unconditional order-insensitivity: a
two-entry map whose keys are not of string kind. The String() form of
every int-kind key is the same placeholder, so the comparator of the
key sort in valueToValue never fires and the emitted entries follow the
iteration order; the two iteration orders of this one Go map are
representation-equivalent, yet they marshal to different AST values,
and the emitted keys are the placeholder rather than the map's own
keys. -/
theorem valueToValue_intkey_order_cex :
    ReprEquiv (.map [(.int 1, .int 10), (.int 2, .int 20)])
      (.map [(.int 2, .int 20), (.int 1, .int 10)]) ∧
    valueToValue {} (.map [(.int 1, .int 10), (.int 2, .int 20)]) ≠
      valueToValue {} (.map [(.int 2, .int 20), (.int 1, .int 10)]) := by
  constructor
  · refine ReprEquiv.map ?_ ?_
    · simpa using List.Perm.swap (GoKey.int 2) (GoKey.int 1) []
    · intro pa hpa pb hpb hk
      simp only [List.mem_cons, List.not_mem_nil, or_false] at hpa hpb
      rcases hpa with rfl | rfl <;> rcases hpb with rfl | rfl <;>
        first
        | exact ReprEquiv.int _
        | exact absurd hk (by decide)
  · intro hEq
    have hs1 : sortKeys ([((GoKey.int 1 : GoKey), (GoVal.int 10 : GoVal)),
        (.int 2, .int 20)].map Prod.fst) = [.int 1, .int 2] := by decide
    have hs2 : sortKeys ([((GoKey.int 2 : GoKey), (GoVal.int 20 : GoVal)),
        (.int 1, .int 10)].map Prod.fst) = [.int 2, .int 1] := by decide
    rw [valueToValue_map_eq, valueToValue_map_eq, hs1, hs2] at hEq
    simp only [List.map_cons, List.map_nil] at hEq
    norm_num [lookupGoOpt, valueToValue_int_eq] at hEq

/-- C9 (amended). For a Go value all of whose map keys are of string
kind, marshalling is insensitive to map iteration order: two runs,
which observe the entries of every map in two arbitrary orders, produce
identical AST values (and hence byte-identical printed output, printing
being a function of the AST), and every map is emitted with its entries
sorted by key in ascending string order. On maps whose keys are of a
non-string kind this fails, per the counterexample. -/
theorem Marshal_map_deterministic_strkeys (opt : marshalState) (v1 v2 : GoVal)
    (hs : stringKeyed v1 = true) (h : ReprEquiv v1 v2) :
    valueToValue opt v1 = valueToValue opt v2 ∧
    mapsSorted (valueToValue opt v1) = true :=
  ⟨valueToValue_congr opt v1 v2 hs h, valueToValue_sorted opt v1⟩

/-- Witness for the restricted marshalling-determinism theorem: the two
iteration orders of a two-entry string-keyed map yield the same emitted
value, sorted by key. -/
theorem Marshal_map_deterministic_strkeys_witness :
    stringKeyed (.map [(.str (gs "b"), .int 1), (.str (gs "a"), .int 2)]) = true ∧
    (valueToValue {} (.map [(.str (gs "b"), .int 1), (.str (gs "a"), .int 2)]) =
       valueToValue {} (.map [(.str (gs "a"), .int 2), (.str (gs "b"), .int 1)]) ∧
     mapsSorted (valueToValue {}
       (.map [(.str (gs "b"), .int 1), (.str (gs "a"), .int 2)])) = true) :=
  ⟨by rw [stringKeyed_map_eq]; simp [goKeyIsStr, stringKeyed_int],
   Marshal_map_deterministic_strkeys {} _ _
     (by rw [stringKeyed_map_eq]; simp [goKeyIsStr, stringKeyed_int])
     (by
       refine ReprEquiv.map ?_ ?_
       · simpa using List.Perm.swap (GoKey.str (gs "a")) (GoKey.str (gs "b")) []
       · intro pa hpa pb hpb hk
         simp only [List.mem_cons, List.not_mem_nil, or_false] at hpa hpb
         rcases hpa with rfl | rfl <;> rcases hpb with rfl | rfl <;>
           first
           | exact ReprEquiv.int _
           | exact absurd hk (by decide))⟩

/-- C1. Two distinct valid ASTs, differing only in the Optional
schema-constraint flag of an attribute whose value is not a type, print
to the same text (the printer emits constraint groups only for
type-valued attributes), so no parse of the printed text can restore
both: parse(print(a)) cannot equal a for every valid AST even after
normalizing positions and re-linking parents. -/
theorem marshalAST_drops_nontype_constraints :
    marshalAST [] cexOptionalAST = .ok (gs "a = true\n") ∧
    marshalAST [] cexPlainAST = .ok (gs "a = true\n") ∧
    cexOptionalAST ≠ cexPlainAST := by
  refine ⟨?_, ?_, ?_⟩
  · simp [marshalAST, marshalEntries, marshalEntriesGo, marshalAttribute, marshalValue,
      marshalComments, cexOptionalAST, valueString, isType, gs, splitOnNl]
  · simp [marshalAST, marshalEntries, marshalEntriesGo, marshalAttribute, marshalValue,
      marshalComments, cexPlainAST, valueString, isType, gs, splitOnNl]
  · simp [cexOptionalAST, cexPlainAST]

/-- C8. Clone is not a deep independent copy: the cloned Number shares
the original big.Float cell (Copy into the shared pointer is a no-op),
so writing 2 through the clone changes the value the original reads,
and Attribute.Clone drops a set Default and Enum entirely. -/
theorem clone_not_deep_copy :
    (numberClone (fun _ => 1) ⟨Pos.zero, 0⟩).1.ref = 0 ∧
    storeRead (storeWrite (numberClone (fun _ => 1) ⟨Pos.zero, 0⟩).2
      (numberClone (fun _ => 1) ⟨Pos.zero, 0⟩).1.ref 2) 0 = 2 ∧
    attributeClone (.attribute Pos.zero [] (gs "a") (some (.bool Pos.zero true))
        (some (.number Pos.zero 3)) [.number Pos.zero 3, .number Pos.zero 4] true) =
      .attribute Pos.zero [] (gs "a") (some (.bool Pos.zero true)) none [] true := by
  refine ⟨rfl, ?_, ?_⟩
  · simp [numberClone, storeRead, storeWrite]
  · simp [attributeClone, cloneStrings, valueClone]

end HclSpec
